import Mathlib

/-!
Verification model of `src/image_crawler.py` (class `ImageCrawler` and `main`).

URLs are modelled as `List Char`.  URL parsing follows CPython's
`urllib.parse` (`urlsplit` / `urlparse` / `urlunsplit` / `urlunparse` /
`urljoin`) as of Python 3.12, which is what `_normalize_url`,
`_is_same_domain` and `_find_images` call.  The `ValueError` branches of
`urlsplit` for malformed bracketed IPv6 hosts and the NFKC netloc check are
not modelled: when they do not raise they do not affect the result, and no
claim here concerns raising inputs.
-/

/-- Characters stripped from the left of a URL before parsing: the WHATWG
C0-control-or-space set, i.e. code points up to 0x20
(CPython `_WHATWG_C0_CONTROL_OR_SPACE`; CPython strips the left side only). -/
def isC0OrSpace (c : Char) : Bool := c.toNat ≤ 32

/-- Characters removed everywhere in a URL before parsing
(CPython `_UNSAFE_URL_BYTES_TO_REMOVE`: tab, CR, LF). -/
def isUnsafeUrlChar (c : Char) : Bool := c == '\t' || c == '\r' || c == '\n'

/-- The input cleaning done at the top of CPython `urlsplit`:
left-strip C0 controls and spaces, then delete tab/CR/LF everywhere. -/
def cleanUrl (l : List Char) : List Char :=
  (l.dropWhile isC0OrSpace).filter (fun c => !isUnsafeUrlChar c)

/-- CPython `scheme_chars`: characters allowed in a URL scheme. -/
def schemeChars : List Char :=
  "abcdefghijklmnopqrstuvwxyzABCDEFGHIJKLMNOPQRSTUVWXYZ0123456789+-.".toList

def isSchemeChar (c : Char) : Bool := decide (c ∈ schemeChars)

/-- ASCII letters; `c.isascii() and c.isalpha()` in Python holds exactly for
these characters. -/
def asciiAlphaChars : List Char :=
  "abcdefghijklmnopqrstuvwxyzABCDEFGHIJKLMNOPQRSTUVWXYZ".toList

def isAsciiAlpha (c : Char) : Bool := decide (c ∈ asciiAlphaChars)

/-- Scheme extraction step of `urlsplit`: `i = url.find(':')`; a scheme is
split off when `i > 0`, the first character is an ASCII letter and every
character before the colon is a scheme character; the scheme is lowercased.
Returns `(scheme, rest)`; on failure the scheme is `[]` and the input is
returned unchanged (matching the `scheme=''` default used by the crawler). -/
def splitScheme (l : List Char) : List Char × List Char :=
  if l.dropWhile (· != ':') = [] ∨ l.takeWhile (· != ':') = [] then ([], l)
  else if (l.takeWhile (· != ':')).headI ∈ asciiAlphaChars ∧
          ∀ c ∈ l.takeWhile (· != ':'), c ∈ schemeChars then
    ((l.takeWhile (· != ':')).map Char.toLower, (l.dropWhile (· != ':')).tail)
  else ([], l)

/-- Delimiters ending the netloc in `_splitnetloc`. -/
def isNetlocDelim (c : Char) : Bool := c == '/' || c == '?' || c == '#'

/-- Netloc extraction: when the remaining URL starts with `//`, the netloc
runs to the first of `/?#` (CPython `_splitnetloc`). -/
def splitNetloc (l : List Char) : List Char × List Char :=
  if l.take 2 = ['/', '/'] then
    ((l.drop 2).takeWhile (fun c => !isNetlocDelim c),
     (l.drop 2).dropWhile (fun c => !isNetlocDelim c))
  else ([], l)

/-- Fragment split: `url.split('#', 1)` guarded by `'#' in url`; when there
is no `#` this returns `(l, [])`, which is also what the guarded Python code
leaves in place. -/
def splitFragment (l : List Char) : List Char × List Char :=
  (l.takeWhile (· != '#'), (l.dropWhile (· != '#')).tail)

/-- Query split: `url.split('?', 1)` guarded by `'?' in url`. -/
def splitQuery (l : List Char) : List Char × List Char :=
  (l.takeWhile (· != '?'), (l.dropWhile (· != '?')).tail)

/-- Part of `l` strictly after its last `/` (empty if `l` ends in `/`). -/
def afterLastSlash (l : List Char) : List Char :=
  (l.reverse.takeWhile (· != '/')).reverse

/-- Part of `l` up to and including its last `/` (all of `l` if no `/`). -/
def uptoLastSlash (l : List Char) : List Char :=
  (l.reverse.dropWhile (· != '/')).reverse

/-- CPython `_splitparams`, called by `urlparse` only when `;` occurs in the
path: when the path contains a `/`, parameters are split at the first `;`
occurring after the last `/` (if any); otherwise at the first `;`. -/
def splitParams (l : List Char) : List Char × List Char :=
  if l.contains '/' then
    let suf := afterLastSlash l
    if suf.contains ';' then
      (uptoLastSlash l ++ suf.takeWhile (· != ';'), (suf.dropWhile (· != ';')).tail)
    else (l, [])
  else (l.takeWhile (· != ';'), (l.dropWhile (· != ';')).tail)

/-- The params step of `urlparse`: split only when the path contains `;`. -/
def parseParams (l : List Char) : List Char × List Char :=
  if l.contains ';' then splitParams l else (l, [])

/-- Result of `urllib.parse.urlparse`. -/
structure ParseResult where
  scheme : List Char
  netloc : List Char
  path : List Char
  params : List Char
  query : List Char
  fragment : List Char
deriving DecidableEq, Repr

/-- Model of `urllib.parse.urlparse(url)` with default scheme `''` and
`allow_fragments=True`, exactly the form the crawler uses. -/
def urlparse (l : List Char) : ParseResult :=
  let u := cleanUrl l
  let su := splitScheme u
  let nu := splitNetloc su.2
  let uf := splitFragment nu.2
  let uq := splitQuery uf.1
  let pp := parseParams uq.1
  ⟨su.1, nu.1, pp.1, pp.2, uq.2, uf.2⟩

/-- Model of `urllib.parse.urlparse(url, scheme=default)`: the default
scheme is used when the URL does not carry its own (`urljoin` needs this). -/
def urlparseD (l : List Char) (default : List Char) : ParseResult :=
  let r := urlparse l
  if r.scheme = [] then { r with scheme := default } else r

/-- Model of `urllib.parse.urlunsplit` (scheme, netloc, path, query,
fragment). -/
def urlunsplit (s n p q f : List Char) : List Char :=
  let u := if n ≠ [] ∨ (p ≠ [] ∧ p.take 2 = ['/', '/']) then
             '/' :: '/' :: (n ++ (if p ≠ [] ∧ p.head? ≠ some '/' then '/' :: p else p))
           else p
  let u := if s ≠ [] then s ++ ':' :: u else u
  let u := if q ≠ [] then u ++ '?' :: q else u
  if f ≠ [] then u ++ '#' :: f else u

/-- Model of `urllib.parse.urlunparse`. -/
def urlunparse (r : ParseResult) : List Char :=
  urlunsplit r.scheme r.netloc
    (if r.params ≠ [] then r.path ++ ';' :: r.params else r.path)
    r.query r.fragment

/-- Python `str.rstrip("/")`. -/
def rstripSlashes (l : List Char) : List Char :=
  (l.reverse.dropWhile (· == '/')).reverse

/-- `parsed.path.rstrip("/") or "/"` from `_normalize_url`. -/
def normPath (p : List Char) : List Char :=
  if rstripSlashes p = [] then ['/'] else rstripSlashes p

/-- Model of `ImageCrawler._normalize_url`: re-assemble the parsed URL with
a trailing-slash-stripped path (empty path becomes `/`) and no fragment. -/
def normalize_url (l : List Char) : List Char :=
  let parsed := urlparse l
  urlunparse ⟨parsed.scheme, parsed.netloc, normPath parsed.path,
              parsed.params, parsed.query, []⟩

-- Sanity checks of the model against CPython behaviour.
example : normalize_url "http://h/a/#f".toList = "http://h/a".toList := by decide
example : normalize_url "".toList = "/".toList := by decide
example : normalize_url "http://Host/p?q=1#frag".toList = "http://Host/p?q=1".toList := by decide
example : normalize_url "HTTP://Host/".toList = "http://Host/".toList := by decide
example : urlparse "http://h/a;p/x".toList =
    ⟨"http".toList, "h".toList, "/a;p/x".toList, [], [], []⟩ := by decide
example : urlparse "http://h/a/x;p?q#f".toList =
    ⟨"http".toList, "h".toList, "/a/x".toList, "p".toList, "q".toList, "f".toList⟩ := by
  decide
-- The idempotence counterexample: "/a;/" normalizes to "/a;", which
-- normalizes further to "/a".
example : normalize_url "/a;/".toList = "/a;".toList := by decide
example : normalize_url "/a;".toList = "/a".toList := by decide

/-! ### List helper lemmas used by the URL-parser proofs -/

theorem takeWhile_append_ofAll {α : Type} {p : α → Bool} {l₁ : List α}
    (h : ∀ c ∈ l₁, p c = true) {a : α} (ha : p a = false) (l₂ : List α) :
    (l₁ ++ a :: l₂).takeWhile p = l₁ := by
  induction l₁ with
  | nil => simp [List.takeWhile_cons, ha]
  | cons x xs ih =>
    have hx : p x = true := h x (by simp)
    simp only [List.cons_append, List.takeWhile_cons, hx, if_true]
    rw [ih (fun c hc => h c (by simp [hc]))]

theorem dropWhile_append_ofAll {α : Type} {p : α → Bool} {l₁ : List α}
    (h : ∀ c ∈ l₁, p c = true) {a : α} (ha : p a = false) (l₂ : List α) :
    (l₁ ++ a :: l₂).dropWhile p = a :: l₂ := by
  induction l₁ with
  | nil => simp [List.dropWhile_cons, ha]
  | cons x xs ih =>
    have hx : p x = true := h x (by simp)
    simp only [List.cons_append, List.dropWhile_cons, hx, if_true]
    exact ih (fun c hc => h c (by simp [hc]))

theorem takeWhile_eq_self_ofAll {α : Type} {p : α → Bool} {l : List α}
    (h : ∀ c ∈ l, p c = true) : l.takeWhile p = l := by
  induction l with
  | nil => rfl
  | cons x xs ih =>
    have hx : p x = true := h x (by simp)
    simp only [List.takeWhile_cons, hx, if_true]
    rw [ih (fun c hc => h c (by simp [hc]))]

theorem dropWhile_eq_nil_ofAll {α : Type} {p : α → Bool} {l : List α}
    (h : ∀ c ∈ l, p c = true) : l.dropWhile p = [] := by
  induction l with
  | nil => rfl
  | cons x xs ih =>
    have hx : p x = true := h x (by simp)
    simp only [List.dropWhile_cons, hx, if_true]
    exact ih (fun c hc => h c (by simp [hc]))

theorem mem_takeWhile_pred {α : Type} {p : α → Bool} {l : List α} {c : α}
    (h : c ∈ l.takeWhile p) : p c = true := by
  induction l with
  | nil => simp at h
  | cons x xs ih =>
    rw [List.takeWhile_cons] at h
    by_cases hx : p x = true
    · simp [hx] at h
      rcases h with h | h
      · exact h ▸ hx
      · exact ih h
    · simp [hx] at h

theorem mem_of_mem_takeWhile {α : Type} {p : α → Bool} {l : List α} {c : α}
    (h : c ∈ l.takeWhile p) : c ∈ l :=
  (List.takeWhile_sublist p).subset h

theorem mem_of_mem_dropWhile {α : Type} {p : α → Bool} {l : List α} {c : α}
    (h : c ∈ l.dropWhile p) : c ∈ l :=
  (List.dropWhile_sublist p).subset h

theorem mem_of_mem_tail {α : Type} {l : List α} {c : α} (h : c ∈ l.tail) : c ∈ l := by
  cases l with
  | nil => simp at h
  | cons x xs => exact List.mem_cons_of_mem x h

theorem dropWhile_head_false {α : Type} {p : α → Bool} {l : List α} {c : α} {t : List α}
    (h : l.dropWhile p = c :: t) : p c = false := by
  induction l with
  | nil => simp at h
  | cons x xs ih =>
    rw [List.dropWhile_cons] at h
    by_cases hx : p x = true
    · simp [hx] at h; exact ih h
    · simp [hx] at h
      rw [← h.1]
      exact Bool.of_not_eq_true hx

theorem headI_append {α : Type} [Inhabited α] {l₁ : List α} (h : l₁ ≠ []) (l₂ : List α) :
    (l₁ ++ l₂).headI = l₁.headI := by
  cases l₁ with
  | nil => exact absurd rfl h
  | cons x xs => rfl

/-! ### Character-class facts (all checked by evaluation over the finite sets) -/

theorem schemeChars_toLower_mem : ∀ c ∈ schemeChars, Char.toLower c ∈ schemeChars := by decide

theorem schemeChars_toLower_idem :
    ∀ c ∈ schemeChars, Char.toLower (Char.toLower c) = Char.toLower c := by decide

theorem alpha_toLower_mem : ∀ c ∈ asciiAlphaChars, Char.toLower c ∈ asciiAlphaChars := by
  decide

theorem schemeChars_ne_special :
    ∀ c ∈ schemeChars, c ≠ ':' ∧ c ≠ '/' ∧ c ≠ '?' ∧ c ≠ '#' ∧ c ≠ ';' := by decide

theorem schemeChars_clean :
    ∀ c ∈ schemeChars, isC0OrSpace c = false ∧ isUnsafeUrlChar c = false := by decide

theorem alphaChars_props :
    ∀ c ∈ asciiAlphaChars, isC0OrSpace c = false ∧ c ≠ '/' := by decide

theorem unsafe_is_c0 : ∀ c : Char, isUnsafeUrlChar c = true → isC0OrSpace c = true := by
  intro c h
  simp only [isUnsafeUrlChar, Bool.or_eq_true, beq_iff_eq] at h
  rcases h with (h | h) | h <;> subst h <;> decide

theorem contains_eq_false_of_not_mem {c : Char} {l : List Char} (h : c ∉ l) :
    l.contains c = false := by
  rw [List.contains]
  exact Bool.eq_false_iff.mpr (fun hb => h (List.elem_iff.mp hb))


theorem takeWhile_head {α : Type} [Inhabited α] {p : α → Bool} {l : List α} {c : α}
    {t : List α} (h : l.takeWhile p = c :: t) : l.headI = c ∧ l ≠ [] := by
  cases l with
  | nil => simp at h
  | cons x xs =>
    rw [List.takeWhile_cons] at h
    by_cases hx : p x = true
    · simp [hx] at h
      exact ⟨h.1, by simp⟩
    · simp [hx] at h

/-- Full characterization of the scheme-extraction step. -/
theorem splitScheme_spec (l : List Char) :
    splitScheme l = ([], l) ∨
    ∃ pre rest, l = pre ++ ':' :: rest ∧ pre ≠ [] ∧
      (∀ c ∈ pre, c ∈ schemeChars) ∧ pre.headI ∈ asciiAlphaChars ∧
      splitScheme l = (pre.map Char.toLower, rest) := by
  by_cases h1 : (l.dropWhile (· != ':') = [] ∨ l.takeWhile (· != ':') = [])
  · left
    simp only [splitScheme]
    rw [if_pos h1]
  · by_cases h2 : ((l.takeWhile (· != ':')).headI ∈ asciiAlphaChars ∧
        ∀ c ∈ l.takeWhile (· != ':'), c ∈ schemeChars)
    · right
      push_neg at h1
      obtain ⟨hpost, hpre⟩ := h1
      rcases hdrop : l.dropWhile (· != ':') with _ | ⟨c0, rest⟩
      · exact absurd hdrop hpost
      · have hc0 : c0 = ':' := by
          have := dropWhile_head_false hdrop
          simpa using this
        subst hc0
        refine ⟨l.takeWhile (· != ':'), rest, ?_, hpre, h2.2, h2.1, ?_⟩
        · conv_lhs => rw [← List.takeWhile_append_dropWhile (p := (· != ':')) (l := l)]
          rw [hdrop]
        · simp only [splitScheme]
          rw [if_neg (by push_neg; exact ⟨hpost, hpre⟩), if_pos h2, hdrop]
          rfl
    · left
      simp only [splitScheme]
      rw [if_neg h1, if_neg h2]

/-- When the head of the input is not an ASCII letter no scheme is split. -/
theorem splitScheme_eq_self_of_head_not_alpha {c : Char} {t : List Char}
    (h : c ∉ asciiAlphaChars) : splitScheme (c :: t) = ([], c :: t) := by
  rcases splitScheme_spec (c :: t) with hs | ⟨pre, rest, heq, hne, _, halpha, _⟩
  · exact hs
  · exfalso
    rcases pre with _ | ⟨p0, pre'⟩
    · exact hne rfl
    · have hcp : c = p0 := by
        have : c :: t = p0 :: (pre' ++ ':' :: rest) := heq
        injection this
      subst hcp
      simp only [List.headI] at halpha
      exact h halpha

/-- The scheme extraction succeeds on a well-formed scheme prefix. -/
theorem splitScheme_extract {pre rest : List Char} (hne : pre ≠ [])
    (hall : ∀ c ∈ pre, c ∈ schemeChars) (halpha : pre.headI ∈ asciiAlphaChars) :
    splitScheme (pre ++ ':' :: rest) = (pre.map Char.toLower, rest) := by
  have hmem : ∀ c ∈ pre, ((c != ':') = true) := by
    intro c hc
    simpa using (schemeChars_ne_special c (hall c hc)).1
  have htake := takeWhile_append_ofAll hmem (a := ':') (by simp) rest
  have hdrop := dropWhile_append_ofAll hmem (a := ':') (by simp) rest
  simp only [splitScheme, htake, hdrop]
  rw [if_neg (by push_neg; exact ⟨by simp, hne⟩), if_pos ⟨halpha, hall⟩]
  rfl

/-- Full characterization of the netloc-extraction step. -/
theorem splitNetloc_spec (l : List Char) :
    (l.take 2 ≠ ['/', '/'] ∧ splitNetloc l = ([], l)) ∨
    (∃ r, l = '/' :: '/' :: r ∧
      splitNetloc l = (r.takeWhile (fun c => !isNetlocDelim c),
                       r.dropWhile (fun c => !isNetlocDelim c))) := by
  by_cases h : l.take 2 = ['/', '/']
  · right
    rcases l with _ | ⟨x, _ | ⟨y, r⟩⟩
    · simp at h
    · simp at h
    · have hx : x = '/' := by simpa using congrArg (·.headI) h
      have hy : y = '/' := by
        have := congrArg List.tail h
        simpa using congrArg List.headI this
      subst hx; subst hy
      refine ⟨r, rfl, ?_⟩
      simp only [splitNetloc]
      rw [if_pos h]
      rfl
  · left
    refine ⟨h, ?_⟩
    simp only [splitNetloc]
    rw [if_neg h]

theorem splitNetloc_of_take2 {l : List Char} (h : l.take 2 ≠ ['/', '/']) :
    splitNetloc l = ([], l) := by
  simp only [splitNetloc]
  rw [if_neg h]

/-- The first list in an append carries the colon when the second is empty or
begins with a question mark and the prefix is all scheme characters. -/
theorem colon_transfer {P qp pre w : List Char}
    (heq : P ++ qp = pre ++ ':' :: w)
    (hall : ∀ c ∈ pre, c ∈ schemeChars)
    (hqp : qp = [] ∨ ∃ q', qp = '?' :: q') :
    ∃ t, P = pre ++ ':' :: t := by
  rcases List.append_eq_append_iff.mp heq with ⟨a, ha1, ha2⟩ | ⟨c, hc1, hc2⟩
  · exfalso
    rcases hqp with hqp | ⟨q', hqp⟩
    · rw [hqp] at ha2
      exact List.cons_ne_nil ':' w (by simpa using ha2.symm)
    · rw [hqp] at ha2
      rcases a with _ | ⟨a0, a'⟩
      · simp at ha2
      · have ha0 : a0 = '?' := by
          have : '?' :: q' = a0 :: (a' ++ ':' :: w) := ha2
          injection this with h1 _
          exact h1.symm
        subst ha0
        have hmem : '?' ∈ pre := by rw [ha1]; simp
        exact (schemeChars_ne_special '?' (hall _ hmem)).2.2.1 rfl
  · rcases c with _ | ⟨c0, c'⟩
    · exfalso
      simp only [List.nil_append] at hc2
      rcases hqp with hqp | ⟨q', hqp⟩
      · rw [hqp] at hc2
        exact List.cons_ne_nil ':' w hc2
      · rw [hqp] at hc2
        have : ':' = '?' := by injection hc2
        exact absurd this (by decide)
    · have hc0 : c0 = ':' := by injection hc2 with h1 _; exact h1.symm
      subst hc0
      exact ⟨c', hc1⟩

theorem dropWhile_dropWhile {α : Type} (p : α → Bool) (l : List α) :
    (l.dropWhile p).dropWhile p = l.dropWhile p := by
  rcases hd : l.dropWhile p with _ | ⟨c, t⟩
  · rfl
  · rw [List.dropWhile_cons_of_neg]
    rw [dropWhile_head_false hd]
    simp

/-- The trailing-slash strip produces a prefix of its input whose removed
suffix is all slashes. -/
theorem rstripSlashes_decomp (l : List Char) :
    ∃ t, l = rstripSlashes l ++ t ∧ ∀ c ∈ t, c = '/' := by
  refine ⟨(l.reverse.takeWhile (· == '/')).reverse, ?_, ?_⟩
  · conv_lhs => rw [← l.reverse_reverse]
    conv_lhs =>
      rw [← List.takeWhile_append_dropWhile (p := (· == '/')) (l := l.reverse)]
    rw [List.reverse_append]
    rfl
  · intro c hc
    rw [List.mem_reverse] at hc
    simpa using mem_takeWhile_pred hc

theorem rstripSlashes_idem (l : List Char) :
    rstripSlashes (rstripSlashes l) = rstripSlashes l := by
  simp only [rstripSlashes, List.reverse_reverse]
  rw [dropWhile_dropWhile]

theorem normPath_ne_nil (p : List Char) : normPath p ≠ [] := by
  unfold normPath
  split
  · simp
  · assumption

theorem normPath_idem (p : List Char) : normPath (normPath p) = normPath p := by
  by_cases h : rstripSlashes p = []
  · have h1 : normPath p = ['/'] := by simp [normPath, h]
    rw [h1]
    rfl
  · have h1 : normPath p = rstripSlashes p := by simp [normPath, h]
    rw [h1]
    simp [normPath, rstripSlashes_idem, h]

/-- Either the normalized path is the bare slash, or it is the non-empty
trailing-slash strip of the original path, hence shares its head. -/
theorem normPath_cases (p : List Char) :
    normPath p = ['/'] ∨
    (normPath p = rstripSlashes p ∧ normPath p ≠ [] ∧ p ≠ [] ∧
      (normPath p).headI = p.headI ∧ ∃ t, p = normPath p ++ t) := by
  by_cases h : rstripSlashes p = []
  · left; simp [normPath, h]
  · right
    have h1 : normPath p = rstripSlashes p := by simp [normPath, h]
    obtain ⟨t, hdec, _⟩ := rstripSlashes_decomp p
    refine ⟨h1, by rw [h1]; exact h, ?_, ?_, ⟨t, by rw [h1]; exact hdec⟩⟩
    · intro hp
      rw [hp] at hdec h
      simp at hdec
      exact h hdec.1
    · rw [h1]
      conv_rhs => rw [hdec]
      exact (headI_append h t).symm

theorem mem_normPath {p : List Char} {c : Char} (h : c ∈ normPath p) :
    c = '/' ∨ c ∈ p := by
  rcases normPath_cases p with h1 | ⟨h1, _, _, _, t, hdec⟩
  · left
    rw [h1] at h
    simpa using h
  · right
    rw [hdec]
    exact List.mem_append_left t h

theorem mem_cleanUrl {l : List Char} {c : Char} (h : c ∈ cleanUrl l) :
    isUnsafeUrlChar c = false ∧ c ∈ l := by
  unfold cleanUrl at h
  have h2 := List.mem_filter.mp h
  refine ⟨by simpa using h2.2, mem_of_mem_dropWhile h2.1⟩

theorem cleanUrl_head {l : List Char} {c : Char} {t : List Char}
    (h : cleanUrl l = c :: t) : isC0OrSpace c = false := by
  unfold cleanUrl at h
  rcases hd : l.dropWhile isC0OrSpace with _ | ⟨x, xs⟩
  · rw [hd] at h
    simp at h
  · have hx : isC0OrSpace x = false := dropWhile_head_false hd
    have hxu : isUnsafeUrlChar x = false := by
      rcases hu : isUnsafeUrlChar x with _ | _
      · rfl
      · rw [unsafe_is_c0 x hu] at hx
        exact absurd hx (by simp)
    rw [hd] at h
    rw [List.filter_cons_of_pos (by simp [hxu])] at h
    have : x = c := by injection h
    rw [← this]
    exact hx

/-- `cleanUrl` is the identity on lists with a clean head and no unsafe
characters. -/
theorem cleanUrl_eq_self {l : List Char}
    (hmem : ∀ c ∈ l, isUnsafeUrlChar c = false)
    (hhead : ∀ c t, l = c :: t → isC0OrSpace c = false) :
    cleanUrl l = l := by
  unfold cleanUrl
  have hd : l.dropWhile isC0OrSpace = l := by
    rcases l with _ | ⟨x, xs⟩
    · rfl
    · rw [List.dropWhile_cons_of_neg]
      rw [hhead x xs rfl]
      simp
  rw [hd]
  rw [List.filter_eq_self.mpr]
  intro c hc
  simp [hmem c hc]

theorem splitFragment_no_hash {X : List Char} (h : ∀ c ∈ X, c ≠ '#') :
    splitFragment X = (X, []) := by
  have h' : ∀ c ∈ X, (c != '#') = true := fun c hc => by simpa using h c hc
  unfold splitFragment
  rw [takeWhile_eq_self_ofAll h', dropWhile_eq_nil_ofAll h']
  rfl

theorem splitQuery_no_mark {X : List Char} (h : ∀ c ∈ X, c ≠ '?') :
    splitQuery X = (X, []) := by
  have h' : ∀ c ∈ X, (c != '?') = true := fun c hc => by simpa using h c hc
  unfold splitQuery
  rw [takeWhile_eq_self_ofAll h', dropWhile_eq_nil_ofAll h']
  rfl

theorem splitQuery_append {P q' : List Char} (h : ∀ c ∈ P, c ≠ '?') :
    splitQuery (P ++ '?' :: q') = (P, q') := by
  have h' : ∀ c ∈ P, (c != '?') = true := fun c hc => by simpa using h c hc
  unfold splitQuery
  rw [takeWhile_append_ofAll h' (by simp) q', dropWhile_append_ofAll h' (by simp) q']
  rfl

theorem parseParams_no_semi {P : List Char} (h : ';' ∉ P) : parseParams P = (P, []) := by
  unfold parseParams
  simp [contains_eq_false_of_not_mem h]
  intro hmem
  exact absurd hmem h

theorem take2_append_ne {P qp : List Char} (hP : P ≠ []) (h2 : P.take 2 ≠ ['/', '/'])
    (hqp : qp = [] ∨ ∃ q', qp = '?' :: q') : (P ++ qp).take 2 ≠ ['/', '/'] := by
  rcases P with _ | ⟨x, _ | ⟨y, t⟩⟩
  · exact absurd rfl hP
  · rcases hqp with hqp | ⟨q', hqp⟩
    · subst hqp; simp
    · subst hqp
      intro heq
      have : x = '/' ∧ '?' = '/' := by
        have h1 : ([x] ++ '?' :: q').take 2 = x :: '?' :: [] := by
          simp [List.take]
        rw [h1] at heq
        exact ⟨by injection heq, by injection heq with _ h3; injection h3⟩
      exact absurd this.2 (by decide)
  · intro heq
    apply h2
    have h1 : ((x :: y :: t) ++ qp).take 2 = x :: y :: [] := by simp [List.take]
    rw [h1] at heq
    have hx : x = '/' := by injection heq
    have hy : y = '/' := by injection heq with _ h3; injection h3
    simp [List.take, hx, hy]

theorem head_of_take2 {P : List Char} (h : P.take 2 = ['/', '/']) : P.headI = '/' := by
  rcases P with _ | ⟨x, t⟩
  · simp at h
  · rcases t with _ | ⟨y, t'⟩
    · simp [List.take] at h
    · simp [List.take] at h
      exact h.1

/-- Characters of an `urlunsplit`-shaped string with clean components are
never tab/CR/LF. -/
theorem unsplit_chars_clean {s X q : List Char}
    (hs : s = [] ∨ ∃ pre, s = pre.map Char.toLower ∧ pre ≠ [] ∧
          (∀ c ∈ pre, c ∈ schemeChars) ∧ pre.headI ∈ asciiAlphaChars)
    (hX : ∀ c ∈ X, isUnsafeUrlChar c = false)
    (hq : ∀ c ∈ q, isUnsafeUrlChar c = false) :
    ∀ c ∈ (if s ≠ [] then s ++ ':' :: X else X) ++ (if q = [] then [] else '?' :: q),
      isUnsafeUrlChar c = false := by
  intro c hc
  rcases List.mem_append.mp hc with hc | hc
  · by_cases hsn : s ≠ []
    · rw [if_pos hsn] at hc
      rcases List.mem_append.mp hc with hc | hc
      · rcases hs with hs0 | ⟨pre, hsp, _, hpresch, _⟩
        · exact absurd hs0 hsn
        · rw [hsp] at hc
          obtain ⟨a, ha, rfl⟩ := List.mem_map.mp hc
          exact (schemeChars_clean _ (schemeChars_toLower_mem a (hpresch a ha))).2
      · rcases List.mem_cons.mp hc with hc | hc
        · subst hc; decide
        · exact hX c hc
    · rw [if_neg hsn] at hc
      exact hX c hc
  · by_cases hqn : q = []
    · rw [if_pos hqn] at hc
      simp at hc
    · rw [if_neg hqn] at hc
      rcases List.mem_cons.mp hc with hc | hc
      · subst hc; decide
      · exact hq c hc

/-- The head of an `urlunsplit`-shaped string is not a control or space. -/
theorem unsplit_head_clean {s X q : List Char}
    (hs : s = [] ∨ ∃ pre, s = pre.map Char.toLower ∧ pre ≠ [] ∧
          (∀ c ∈ pre, c ∈ schemeChars) ∧ pre.headI ∈ asciiAlphaChars)
    (hXne : X ≠ [])
    (hXh : s = [] → isC0OrSpace X.headI = false) :
    ∀ c t,
      (if s ≠ [] then s ++ ':' :: X else X) ++ (if q = [] then [] else '?' :: q) = c :: t →
      isC0OrSpace c = false := by
  intro c t heq
  by_cases hsn : s ≠ []
  · rcases hs with hs0 | ⟨pre, hsp, hprene, _, hprealpha⟩
    · exact absurd hs0 hsn
    · rcases pre with _ | ⟨c0, cs⟩
      · exact absurd rfl hprene
      · rw [if_pos hsn, hsp] at heq
        have h2 := congrArg List.headI heq
        have h3 : Char.toLower c0 = c := by simpa using h2
        rw [← h3]
        exact (alphaChars_props _ (alpha_toLower_mem c0 hprealpha)).1
  · rw [if_neg hsn] at heq
    rcases X with _ | ⟨x, xs⟩
    · exact absurd rfl hXne
    · have h2 := congrArg List.headI heq
      have h3 : x = c := by simpa using h2
      rw [← h3]
      exact hXh (not_not.mp hsn)

/-- Scheme re-extraction from an already lowercased scheme returns it
unchanged. -/
theorem splitScheme_extract_mapped {pre core : List Char} (hprene : pre ≠ [])
    (hpresch : ∀ c ∈ pre, c ∈ schemeChars) (hprealpha : pre.headI ∈ asciiAlphaChars) :
    splitScheme ((pre.map Char.toLower) ++ ':' :: core) = (pre.map Char.toLower, core) := by
  have hmape : pre.map Char.toLower ≠ [] := by simp [hprene]
  have hmall : ∀ c ∈ pre.map Char.toLower, c ∈ schemeChars := by
    intro c hc
    obtain ⟨a, ha, rfl⟩ := List.mem_map.mp hc
    exact schemeChars_toLower_mem a (hpresch a ha)
  have hmalpha : (pre.map Char.toLower).headI ∈ asciiAlphaChars := by
    rcases pre with _ | ⟨c0, cs⟩
    · exact absurd rfl hprene
    · exact alpha_toLower_mem c0 hprealpha
  rw [splitScheme_extract hmape hmall hmalpha]
  have hmm : (pre.map Char.toLower).map Char.toLower = pre.map Char.toLower := by
    rw [List.map_map]
    exact List.map_congr_left (fun a ha => schemeChars_toLower_idem a (hpresch a ha))
  rw [hmm]

/-- Core reparse lemma: parsing the string produced by `urlunsplit` (with
clean components and an empty fragment) recovers those components.  The
hypothesis `hhard` rules out accidental scheme extraction in the
scheme-less, netloc-less case; each caller discharges it from what it knows
about the surrounding parse. -/
theorem reparse_unsplit (s n P q : List Char)
    (hs : s = [] ∨ ∃ pre, s = pre.map Char.toLower ∧ pre ≠ [] ∧
          (∀ c ∈ pre, c ∈ schemeChars) ∧ pre.headI ∈ asciiAlphaChars)
    (hn : ∀ c ∈ n, isNetlocDelim c = false ∧ isUnsafeUrlChar c = false)
    (hPne : P ≠ [])
    (hPc : ∀ c ∈ P, isUnsafeUrlChar c = false ∧ c ≠ '#' ∧ c ≠ '?' ∧ c ≠ ';')
    (hqc : ∀ c ∈ q, isUnsafeUrlChar c = false ∧ c ≠ '#')
    (hPhead : n ≠ [] → P.headI = '/')
    (hPhc : s = [] → isC0OrSpace P.headI = false)
    (hhard : ∀ pre w, s = [] → n = [] → P.take 2 ≠ ['/', '/'] →
        P ++ (if q = [] then [] else '?' :: q) = pre ++ ':' :: w →
        pre ≠ [] → (∀ c ∈ pre, c ∈ schemeChars) → pre.headI ∈ asciiAlphaChars → False) :
    urlparse (urlunsplit s n P q []) = ⟨s, n, P, [], q, []⟩ := by
  have hqp : (if q = [] then ([] : List Char) else '?' :: q) = [] ∨
      ∃ q', (if q = [] then ([] : List Char) else '?' :: q) = '?' :: q' := by
    by_cases hqn : q = [] <;> simp [hqn]
  have hPq_hash : ∀ c ∈ P ++ (if q = [] then ([] : List Char) else '?' :: q), c ≠ '#' := by
    intro c hc
    rcases List.mem_append.mp hc with hc | hc
    · exact (hPc c hc).2.1
    · by_cases hqn : q = []
      · simp [hqn] at hc
      · rw [if_neg hqn] at hc
        rcases List.mem_cons.mp hc with hc | hc
        · subst hc; decide
        · exact (hqc c hc).2
  have hstep3 : splitFragment (P ++ (if q = [] then ([] : List Char) else '?' :: q)) =
      (P ++ (if q = [] then ([] : List Char) else '?' :: q), []) :=
    splitFragment_no_hash hPq_hash
  have hstep4 : splitQuery (P ++ (if q = [] then ([] : List Char) else '?' :: q)) = (P, q) := by
    by_cases hqn : q = []
    · rw [if_pos hqn, List.append_nil, hqn]
      exact splitQuery_no_mark (fun c hc => (hPc c hc).2.2.1)
    · rw [if_neg hqn]
      exact splitQuery_append (fun c hc => (hPc c hc).2.2.1)
  have hstep5 : parseParams P = (P, []) :=
    parseParams_no_semi (fun hc => (hPc ';' hc).2.2.2 rfl)
  by_cases hcond : n ≠ [] ∨ (P ≠ [] ∧ P.take 2 = ['/', '/'])
  · -- the unparser emits a netloc section
    have hPh : P.headI = '/' := by
      rcases hcond with hcond | hcond
      · exact hPhead hcond
      · exact head_of_take2 hcond.2
    obtain ⟨Pt, hPt⟩ : ∃ Pt, P = '/' :: Pt := by
      rcases P with _ | ⟨x, t⟩
      · exact absurd rfl hPne
      · have hx : x = '/' := hPh
        exact ⟨t, by rw [hx]⟩
    have hinner : ¬(P ≠ [] ∧ P.head? ≠ some '/') := by
      rw [hPt]; simp
    have hV : urlunsplit s n P q [] =
        (if s ≠ [] then s ++ ':' :: ('/' :: '/' :: (n ++ P)) else '/' :: '/' :: (n ++ P)) ++
          (if q = [] then [] else '?' :: q) := by
      simp only [urlunsplit]
      rw [if_pos hcond, if_neg hinner]
      by_cases hqn : q = []
      · subst hqn; simp
      · simp [hqn]
    have hstep1 : splitScheme (urlunsplit s n P q []) =
        (s, ('/' :: '/' :: (n ++ P)) ++ (if q = [] then [] else '?' :: q)) := by
      rcases hs with hs0 | ⟨pre, hsp, hprene, hpresch, hprealpha⟩
      · rw [hV, if_neg (by simp [hs0]), hs0]
        have hsh : ('/' :: '/' :: (n ++ P)) ++ (if q = [] then [] else '?' :: q) =
            '/' :: ('/' :: (n ++ P) ++ (if q = [] then [] else '?' :: q)) := by simp
        rw [hsh]
        exact splitScheme_eq_self_of_head_not_alpha (by decide)
      · have hsne : s ≠ [] := by rw [hsp]; simp [hprene]
        rw [hV, if_pos hsne]
        have hassoc :
            (s ++ ':' :: ('/' :: '/' :: (n ++ P))) ++ (if q = [] then [] else '?' :: q) =
            s ++ ':' :: (('/' :: '/' :: (n ++ P)) ++ (if q = [] then [] else '?' :: q)) := by
          simp
        rw [hassoc, hsp]
        exact splitScheme_extract_mapped hprene hpresch hprealpha
    have hstep2 : splitNetloc (('/' :: '/' :: (n ++ P)) ++ (if q = [] then [] else '?' :: q)) =
        (n, P ++ (if q = [] then [] else '?' :: q)) := by
      have hsh : ('/' :: '/' :: (n ++ P)) ++ (if q = [] then [] else '?' :: q) =
          '/' :: '/' :: (n ++ (P ++ (if q = [] then [] else '?' :: q))) := by simp
      rw [hsh]
      unfold splitNetloc
      rw [if_pos (by simp)]
      have hdr : ('/' :: '/' :: (n ++ (P ++ (if q = [] then [] else '?' :: q)))).drop 2 =
          n ++ (P ++ (if q = [] then [] else '?' :: q)) := by simp
      rw [hdr]
      have hn' : ∀ c ∈ n, (!isNetlocDelim c) = true := fun c hc => by simp [(hn c hc).1]
      have hPq2 : P ++ (if q = [] then ([] : List Char) else '?' :: q) =
          '/' :: (Pt ++ (if q = [] then [] else '?' :: q)) := by
        rw [hPt]; rfl
      rw [hPq2]
      rw [takeWhile_append_ofAll hn' (by decide) _, dropWhile_append_ofAll hn' (by decide) _]
    have hstep0 : cleanUrl (urlunsplit s n P q []) = urlunsplit s n P q [] := by
      apply cleanUrl_eq_self
      · intro c hc
        rw [hV] at hc
        refine unsplit_chars_clean hs ?_ (fun c hc => (hqc c hc).1) c hc
        intro c hc
        rcases List.mem_cons.mp hc with hc | hc
        · subst hc; decide
        · rcases List.mem_cons.mp hc with hc | hc
          · subst hc; decide
          · rcases List.mem_append.mp hc with hc | hc
            · exact (hn c hc).2
            · exact (hPc c hc).1
      · intro c t heq
        rw [hV] at heq
        refine unsplit_head_clean hs ?_ ?_ c t heq
        · simp
        · intro hs0
          show isC0OrSpace '/' = false
          decide
    show urlparse (urlunsplit s n P q []) = ⟨s, n, P, [], q, []⟩
    rw [urlparse.eq_def]
    simp only [hstep0, hstep1, hstep2, hstep3, hstep4, hstep5]
  · -- no netloc section
    have hcond' := hcond
    push_neg at hcond'
    obtain ⟨hn0, hP2⟩ := hcond'
    have htk2 : P.take 2 ≠ ['/', '/'] := hP2 hPne
    have hV : urlunsplit s n P q [] =
        (if s ≠ [] then s ++ ':' :: P else P) ++ (if q = [] then [] else '?' :: q) := by
      simp only [urlunsplit]
      rw [if_neg hcond]
      by_cases hqn : q = []
      · subst hqn; simp
      · simp [hqn]
    have hstep1 : splitScheme (urlunsplit s n P q []) =
        (s, P ++ (if q = [] then [] else '?' :: q)) := by
      rcases hs with hs0 | ⟨pre, hsp, hprene, hpresch, hprealpha⟩
      · rw [hV, if_neg (by simp [hs0]), hs0]
        rcases splitScheme_spec (P ++ (if q = [] then [] else '?' :: q)) with
          hsp2 | ⟨pre, w, heq, hprene, hpresch, hprealpha, _⟩
        · exact hsp2
        · exact (hhard pre w hs0 hn0 htk2 heq hprene hpresch hprealpha).elim
      · have hsne : s ≠ [] := by rw [hsp]; simp [hprene]
        rw [hV, if_pos hsne]
        have hassoc : (s ++ ':' :: P) ++ (if q = [] then [] else '?' :: q) =
            s ++ ':' :: (P ++ (if q = [] then [] else '?' :: q)) := by simp
        rw [hassoc, hsp]
        exact splitScheme_extract_mapped hprene hpresch hprealpha
    have hstep2 : splitNetloc (P ++ (if q = [] then [] else '?' :: q)) =
        (n, P ++ (if q = [] then [] else '?' :: q)) := by
      rw [hn0]
      exact splitNetloc_of_take2 (take2_append_ne hPne htk2 hqp)
    have hstep0 : cleanUrl (urlunsplit s n P q []) = urlunsplit s n P q [] := by
      apply cleanUrl_eq_self
      · intro c hc
        rw [hV] at hc
        exact unsplit_chars_clean hs (fun c hc => (hPc c hc).1)
          (fun c hc => (hqc c hc).1) c hc
      · intro c t heq
        rw [hV] at heq
        exact unsplit_head_clean hs hPne hPhc c t heq
    show urlparse (urlunsplit s n P q []) = ⟨s, n, P, [], q, []⟩
    rw [urlparse.eq_def]
    simp only [hstep0, hstep1, hstep2, hstep3, hstep4, hstep5]

theorem normPath_head_slash (z : List Char) : (normPath ('/' :: z)).headI = '/' := by
  rcases normPath_cases ('/' :: z) with h | ⟨_, _, _, hh, _⟩
  · rw [h]
    rfl
  · rw [hh]
    rfl

/-- Master lemma: on inputs whose raw text contains no semicolon, parsing
the normalized URL returns the original scheme, netloc and query, the
trailing-slash-stripped path, and empty params and fragment. -/
theorem urlparse_normalize_master (l : List Char) (hsemi : ';' ∉ l) :
    urlparse (normalize_url l) =
      ⟨(urlparse l).scheme, (urlparse l).netloc, normPath (urlparse l).path, [],
       (urlparse l).query, []⟩ := by
  obtain ⟨s, u1, hsu⟩ : ∃ a b, splitScheme (cleanUrl l) = (a, b) := ⟨_, _, rfl⟩
  obtain ⟨n, u2, hnu⟩ : ∃ a b, splitNetloc u1 = (a, b) := ⟨_, _, rfl⟩
  obtain ⟨p0, q, hqu⟩ : ∃ a b, splitQuery (u2.takeWhile (· != '#')) = (a, b) := ⟨_, _, rfl⟩
  have hp0 : (u2.takeWhile (· != '#')).takeWhile (· != '?') = p0 := congrArg Prod.fst hqu
  have hq2 : ((u2.takeWhile (· != '#')).dropWhile (· != '?')).tail = q := congrArg Prod.snd hqu
  -- membership chains down the parse pipeline
  have hmem_u1 : ∀ c ∈ u1, c ∈ cleanUrl l := by
    rcases splitScheme_spec (cleanUrl l) with hS | ⟨pre, rest, hupre, _, _, _, hSres⟩
    · rw [hS] at hsu
      have h1 : cleanUrl l = u1 := congrArg Prod.snd hsu
      rw [← h1]
      exact fun c hc => hc
    · rw [hSres] at hsu
      have h1 : rest = u1 := congrArg Prod.snd hsu
      intro c hc
      rw [hupre, h1]
      exact List.mem_append_right _ (List.mem_cons_of_mem _ hc)
  have hmem_u2 : ∀ c ∈ u2, c ∈ u1 := by
    rcases splitNetloc_spec u1 with ⟨_, hN⟩ | ⟨r, hu1r, hNres⟩
    · rw [hN] at hnu
      have h1 : u1 = u2 := congrArg Prod.snd hnu
      rw [← h1]
      exact fun c hc => hc
    · rw [hNres] at hnu
      have h1 : r.dropWhile (fun c => !isNetlocDelim c) = u2 := congrArg Prod.snd hnu
      intro c hc
      rw [← h1] at hc
      rw [hu1r]
      exact List.mem_cons_of_mem _ (List.mem_cons_of_mem _ (mem_of_mem_dropWhile hc))
  have hmem_p0 : ∀ c ∈ p0, c ∈ u2 := by
    intro c hc
    rw [← hp0] at hc
    exact mem_of_mem_takeWhile (mem_of_mem_takeWhile hc)
  have hmem_q : ∀ c ∈ q, c ∈ u2 := by
    intro c hc
    rw [← hq2] at hc
    exact mem_of_mem_takeWhile (mem_of_mem_dropWhile (mem_of_mem_tail hc))
  have hclean_p0 : ∀ c ∈ p0, c ∈ cleanUrl l :=
    fun c hc => hmem_u1 c (hmem_u2 c (hmem_p0 c hc))
  have hsemi_p0 : ';' ∉ p0 := fun hc => hsemi (mem_cleanUrl (hclean_p0 ';' hc)).2
  have hparams := parseParams_no_semi hsemi_p0
  -- the original parse, spelled out
  have hparse : urlparse l = ⟨s, n, p0, [], q, (u2.dropWhile (· != '#')).tail⟩ := by
    rw [urlparse.eq_def]
    simp only [hsu, hnu, splitFragment, hqu, hparams]
  -- the normalized URL, spelled out
  have hV : normalize_url l = urlunsplit s n (normPath p0) q [] := by
    rw [normalize_url.eq_def, hparse]
    simp only [urlunparse]
    simp
  -- facts for reparse_unsplit
  have hsfact : s = [] ∨ ∃ pre, s = pre.map Char.toLower ∧ pre ≠ [] ∧
      (∀ c ∈ pre, c ∈ schemeChars) ∧ pre.headI ∈ asciiAlphaChars := by
    rcases splitScheme_spec (cleanUrl l) with hS | ⟨pre, rest, _, hprene, hpresch, hprealpha, hSres⟩
    · left
      rw [hS] at hsu
      exact (congrArg Prod.fst hsu).symm
    · right
      rw [hSres] at hsu
      exact ⟨pre, (congrArg Prod.fst hsu).symm, hprene, hpresch, hprealpha⟩
  have hs_nil : s = [] → u1 = cleanUrl l := by
    intro hs0
    rcases splitScheme_spec (cleanUrl l) with hS | ⟨pre, rest, _, hprene, _, _, hSres⟩
    · rw [hS] at hsu
      exact (congrArg Prod.snd hsu).symm
    · rw [hSres] at hsu
      have h1 : pre.map Char.toLower = s := congrArg Prod.fst hsu
      rw [hs0] at h1
      exact absurd (List.map_eq_nil_iff.mp h1) hprene
  -- heads through the pipeline
  have hp0head : ∀ c z, p0 = c :: z → ∃ t2, u2 = c :: t2 := by
    intro c z hcz
    rw [← hp0] at hcz
    obtain ⟨h3, h3ne⟩ := takeWhile_head hcz
    rcases hu3c : u2.takeWhile (· != '#') with _ | ⟨c3, t3⟩
    · exact absurd hu3c h3ne
    · have hc3 : c3 = c := by rw [hu3c] at h3; exact h3
      subst hc3
      obtain ⟨h2, h2ne⟩ := takeWhile_head hu3c
      rcases hu2c : u2 with _ | ⟨d, t⟩
      · exact absurd hu2c h2ne
      · have hd : d = c3 := by rw [hu2c] at h2; exact h2
        exact ⟨t, by rw [hd]⟩
  have hAux2 : (∃ r, u1 = '/' :: '/' :: r ∧ u2 = r.dropWhile (fun c => !isNetlocDelim c)) →
      (normPath p0).headI = '/' := by
    rintro ⟨r, hu1r, hu2r⟩
    rcases hu2c : u2 with _ | ⟨d, t⟩
    · have hp0nil : p0 = [] := by rw [← hp0, hu2c]; rfl
      rw [hp0nil]
      decide
    · have hdd : r.dropWhile (fun c => !isNetlocDelim c) = d :: t := by rw [← hu2r, hu2c]
      have hdel : isNetlocDelim d = true := by
        have := dropWhile_head_false hdd
        simpa using this
      have hd3 : d = '/' ∨ d = '?' ∨ d = '#' := by
        simp only [isNetlocDelim, Bool.or_eq_true, beq_iff_eq] at hdel
        tauto
      rcases hd3 with hd3 | hd3 | hd3 <;> subst hd3
      · have hu3 : u2.takeWhile (· != '#') = '/' :: t.takeWhile (· != '#') := by
          rw [hu2c]
          exact List.takeWhile_cons_of_pos (by decide)
        have hp0c : p0 = '/' :: (t.takeWhile (· != '#')).takeWhile (· != '?') := by
          rw [← hp0, hu3]
          exact List.takeWhile_cons_of_pos (by decide)
        rw [hp0c]
        exact normPath_head_slash _
      · have hu3 : u2.takeWhile (· != '#') = '?' :: t.takeWhile (· != '#') := by
          rw [hu2c]
          exact List.takeWhile_cons_of_pos (by decide)
        have hp0nil : p0 = [] := by
          rw [← hp0, hu3]
          exact List.takeWhile_cons_of_neg (by decide)
        rw [hp0nil]
        decide
      · have hu3 : u2.takeWhile (· != '#') = [] := by
          rw [hu2c]
          exact List.takeWhile_cons_of_neg (by decide)
        have hp0nil : p0 = [] := by rw [← hp0, hu3]; rfl
        rw [hp0nil]
        decide
  -- assemble the goal
  rw [hparse, hV]
  show urlparse (urlunsplit s n (normPath p0) q []) = ⟨s, n, normPath p0, [], q, []⟩
  refine reparse_unsplit s n (normPath p0) q hsfact ?_ (normPath_ne_nil p0) ?_ ?_ ?_ ?_ ?_
  · -- netloc characters
    rcases splitNetloc_spec u1 with ⟨_, hN⟩ | ⟨r, hu1r, hNres⟩
    · rw [hN] at hnu
      have h1 : ([] : List Char) = n := congrArg Prod.fst hnu
      rw [← h1]
      intro c hc
      simp at hc
    · rw [hNres] at hnu
      have h1 : r.takeWhile (fun c => !isNetlocDelim c) = n := congrArg Prod.fst hnu
      intro c hc
      rw [← h1] at hc
      constructor
      · have := mem_takeWhile_pred hc
        simpa using this
      · have hcu1 : c ∈ u1 := by
          rw [hu1r]
          exact List.mem_cons_of_mem _ (List.mem_cons_of_mem _ (mem_of_mem_takeWhile hc))
        exact (mem_cleanUrl (hmem_u1 c hcu1)).1
  · -- path characters
    intro c hc
    rcases mem_normPath hc with hc | hc
    · subst hc
      exact ⟨by decide, by decide, by decide, by decide⟩
    · have hcq : c ≠ '?' := by
        rw [← hp0] at hc
        have := mem_takeWhile_pred hc
        simpa using this
      have hch : c ≠ '#' := by
        rw [← hp0] at hc
        have := mem_takeWhile_pred (mem_of_mem_takeWhile hc)
        simpa using this
      refine ⟨(mem_cleanUrl (hclean_p0 c hc)).1, hch, hcq, ?_⟩
      intro h
      subst h
      exact hsemi_p0 hc
  · -- query characters
    intro c hc
    constructor
    · exact (mem_cleanUrl (hmem_u1 c (hmem_u2 c (hmem_q c hc)))).1
    · rw [← hq2] at hc
      have := mem_takeWhile_pred (mem_of_mem_dropWhile (mem_of_mem_tail hc))
      simpa using this
  · -- head of path is '/' when a netloc is present
    intro hn0
    rcases splitNetloc_spec u1 with ⟨_, hN⟩ | ⟨r, hu1r, hNres⟩
    · rw [hN] at hnu
      have h1 : ([] : List Char) = n := congrArg Prod.fst hnu
      exact absurd h1.symm hn0
    · rw [hNres] at hnu
      exact hAux2 ⟨r, hu1r, (congrArg Prod.snd hnu).symm⟩
  · -- head of path is clean when no scheme was parsed
    intro hs0
    rcases splitNetloc_spec u1 with ⟨_, hN⟩ | ⟨r, hu1r, hNres⟩
    · rw [hN] at hnu
      have hu2u1 : u1 = u2 := congrArg Prod.snd hnu
      rcases normPath_cases p0 with h | ⟨_, _, hp0ne2, hh, _⟩
      · rw [h]
        decide
      · obtain ⟨c, z, hp0c⟩ := List.exists_cons_of_ne_nil hp0ne2
        obtain ⟨t2, hu2eq⟩ := hp0head c z hp0c
        have hcl : cleanUrl l = c :: t2 := by
          rw [← hs_nil hs0, hu2u1, hu2eq]
        rw [hh, hp0c]
        exact cleanUrl_head hcl
    · rw [hNres] at hnu
      rw [hAux2 ⟨r, hu1r, (congrArg Prod.snd hnu).symm⟩]
      decide
  · -- no accidental scheme extraction
    intro pre' w hs0 hn0 htk2 heq hprene' hpresch' hprealpha'
    rcases splitNetloc_spec u1 with ⟨_, hN⟩ | ⟨r, hu1r, hNres⟩
    · -- no netloc: transfer the colon back into the original URL
      have hu1c := hs_nil hs0
      rw [hN] at hnu
      have hu2u1 : u1 = u2 := congrArg Prod.snd hnu
      have hqpshape : (if q = [] then ([] : List Char) else '?' :: q) = [] ∨
          ∃ q', (if q = [] then ([] : List Char) else '?' :: q) = '?' :: q' := by
        by_cases hqn : q = [] <;> simp [hqn]
      obtain ⟨t, hPt2⟩ := colon_transfer heq hpresch' hqpshape
      rcases normPath_cases p0 with h | ⟨_, _, _, _, tt, hp0dec⟩
      · rw [h] at hPt2
        rcases pre' with _ | ⟨a, pre''⟩
        · exact hprene' rfl
        · have h2 : ([] : List Char) = pre'' ++ ':' :: t := by
            have := congrArg List.tail hPt2
            simp at this
          rcases List.append_eq_nil.mp h2.symm with ⟨_, h3⟩
          exact List.cons_ne_nil ':' t h3
      · have hp0e : p0 = pre' ++ ':' :: (t ++ tt) := by
          rw [hp0dec, hPt2]
          simp
        have hu3d : u2.takeWhile (· != '#') =
            p0 ++ (u2.takeWhile (· != '#')).dropWhile (· != '?') := by
          conv_lhs =>
            rw [← List.takeWhile_append_dropWhile (p := (· != '?'))
                  (l := u2.takeWhile (· != '#'))]
          rw [hp0]
        have hu2d : u2 = u2.takeWhile (· != '#') ++ u2.dropWhile (· != '#') :=
          (List.takeWhile_append_dropWhile (p := (· != '#')) (l := u2)).symm
        have hcl : cleanUrl l = pre' ++ ':' ::
            ((t ++ tt) ++ ((u2.takeWhile (· != '#')).dropWhile (· != '?') ++
              u2.dropWhile (· != '#'))) := by
          rw [← hu1c, hu2u1]
          conv_lhs => rw [hu2d, hu3d, hp0e]
          simp
        rw [hcl] at hsu
        rw [splitScheme_extract hprene' hpresch' hprealpha'] at hsu
        have h1 : pre'.map Char.toLower = s := congrArg Prod.fst hsu
        rw [hs0] at h1
        exact hprene' (List.map_eq_nil_iff.mp h1)
    · -- netloc present: the head of the path is '/', not a letter
      rw [hNres] at hnu
      have hPh := hAux2 ⟨r, hu1r, (congrArg Prod.snd hnu).symm⟩
      have h1 : (normPath p0 ++ (if q = [] then [] else '?' :: q)).headI =
          (normPath p0).headI := headI_append (normPath_ne_nil p0) _
      have h2 : (pre' ++ ':' :: w).headI = pre'.headI := headI_append hprene' _
      rw [heq, h2] at h1
      rw [hPh] at h1
      rw [h1] at hprealpha'
      exact absurd hprealpha' (by decide)

theorem mem_splitScheme_snd {u : List Char} {c : Char} (hc : c ∈ (splitScheme u).2) :
    c ∈ u := by
  unfold splitScheme at hc
  split_ifs at hc
  · exact hc
  · exact mem_of_mem_dropWhile (mem_of_mem_tail hc)
  · exact hc

theorem mem_splitNetloc_snd {u : List Char} {c : Char} (hc : c ∈ (splitNetloc u).2) :
    c ∈ u := by
  unfold splitNetloc at hc
  split_ifs at hc
  · exact (List.drop_sublist 2 u).subset (mem_of_mem_dropWhile hc)
  · exact hc

theorem urlparse_params_nil {l : List Char} (hsemi : ';' ∉ l) :
    (urlparse l).params = [] := by
  have hsub : ';' ∉
      ((splitNetloc (splitScheme (cleanUrl l)).2).2.takeWhile (· != '#')).takeWhile (· != '?') := by
    intro hc
    exact hsemi (mem_cleanUrl (mem_splitScheme_snd (mem_splitNetloc_snd
      (mem_of_mem_takeWhile (mem_of_mem_takeWhile hc))))).2
  rw [urlparse.eq_def]
  simp only [splitFragment, splitQuery, parseParams_no_semi hsub]

/-- Claim C8 (amended): for every URL containing no semicolon, `_normalize_url`
strips the fragment, preserves the scheme, netloc and query components
unchanged, empties the params, and replaces the path by its
trailing-slash-stripped form (`/` when that is empty).  The original claim's
"collapses a trailing-slash path to `/`" is refuted by
`normalize_url_path_collapse_cex`. -/
theorem normalize_url_components (l : List Char) (hsemi : ';' ∉ l) :
    urlparse (normalize_url l) =
      ⟨(urlparse l).scheme, (urlparse l).netloc, normPath (urlparse l).path, [],
       (urlparse l).query, []⟩ :=
  urlparse_normalize_master l hsemi

/-- Witness for `normalize_url_components`. -/
theorem normalize_url_components_witness :
    (';' ∉ "http://Host/a/b/?q=1#frag".toList) ∧
    urlparse (normalize_url "http://Host/a/b/?q=1#frag".toList) =
      ⟨(urlparse "http://Host/a/b/?q=1#frag".toList).scheme,
       (urlparse "http://Host/a/b/?q=1#frag".toList).netloc,
       normPath (urlparse "http://Host/a/b/?q=1#frag".toList).path, [],
       (urlparse "http://Host/a/b/?q=1#frag".toList).query, []⟩ :=
  ⟨by decide, normalize_url_components "http://Host/a/b/?q=1#frag".toList (by decide)⟩

/-- Counterexample to claim C8 as stated: the claim says an empty or
trailing-slash path is collapsed to `/`; but `_normalize_url` only strips the
trailing slashes, so `http://h/a/` has path `/a`, not `/`, after
normalization. -/
theorem normalize_url_path_collapse_cex :
    (urlparse "http://h/a/".toList).path.getLast? = some '/' ∧
    (urlparse (normalize_url "http://h/a/".toList)).path ≠ "/".toList ∧
    normalize_url "http://h/a/".toList = "http://h/a".toList := by
  decide

/-- Claim C1 (amended): `_normalize_url` is idempotent on every URL string
that contains no semicolon.  The unrestricted claim is refuted by
`normalize_url_idempotent_cex`: a `;` in the path interacts with the
trailing-slash strip and the params split of `urlparse`. -/
theorem normalize_url_idempotent (l : List Char) (hsemi : ';' ∉ l) :
    normalize_url (normalize_url l) = normalize_url l := by
  conv_lhs => rw [normalize_url.eq_def]
  rw [urlparse_normalize_master l hsemi]
  simp only [normPath_idem]
  conv_rhs => rw [normalize_url.eq_def]
  simp only [urlparse_params_nil hsemi]

/-- Witness for `normalize_url_idempotent`. -/
theorem normalize_url_idempotent_witness :
    (';' ∉ "https://example.com/dir/page/#sec?x=1".toList) ∧
    normalize_url (normalize_url "https://example.com/dir/page/#sec?x=1".toList) =
      normalize_url "https://example.com/dir/page/#sec?x=1".toList :=
  ⟨by decide, normalize_url_idempotent "https://example.com/dir/page/#sec?x=1".toList
    (by decide)⟩

/-- Counterexample to claim C1 as stated: normalization is not idempotent on
`http://h/a;/`.  The first pass strips the trailing slash leaving path
`/a;`; on the second pass `urlparse` splits `;` off as empty params, so the
trailing `;` disappears. -/
theorem normalize_url_idempotent_cex :
    normalize_url (normalize_url "http://h/a;/".toList) ≠
      normalize_url "http://h/a;/".toList ∧
    normalize_url "http://h/a;/".toList = "http://h/a;".toList ∧
    normalize_url (normalize_url "http://h/a;/".toList) = "http://h/a".toList := by
  decide

/-! ### Model of `urllib.parse.urljoin`, used by `_find_images` / `_find_links` -/

/-- CPython `uses_relative`. -/
def usesRelative : List (List Char) :=
  (["", "ftp", "http", "gopher", "nntp", "imap", "wais", "file", "https", "shttp",
    "mms", "prospero", "rtsp", "rtspu", "sftp", "svn", "svn+ssh", "ws", "wss"].map
    String.toList)

/-- CPython `uses_netloc`. -/
def usesNetloc : List (List Char) :=
  (["", "ftp", "http", "gopher", "nntp", "telnet", "imap", "wais", "file", "mms",
    "https", "shttp", "snews", "prospero", "rtsp", "rtspu", "rsync", "svn",
    "svn+ssh", "sftp", "nfs", "git", "git+ssh", "ws", "wss", "itms-services"].map
    String.toList)

/-- Python `str.split(sep)` for a one-character separator (full split). -/
def splitChar (c : Char) : List Char → List (List Char)
  | [] => [[]]
  | x :: xs =>
    let r := splitChar c xs
    if x = c then [] :: r
    else
      match r with
      | [] => [[x]]
      | h :: t => (x :: h) :: t

/-- `segments[1:-1] = filter(None, segments[1:-1])`: drop empty segments
strictly between the first and the last. -/
def filterMiddleAux : List (List Char) → List (List Char)
  | [] => []
  | [x] => [x]
  | x :: xs => if x = [] then filterMiddleAux xs else x :: filterMiddleAux xs

def filterMiddle : List (List Char) → List (List Char)
  | [] => []
  | [x] => [x]
  | x :: xs => x :: filterMiddleAux xs

/-- The relative-path merge loop of CPython `urljoin`. -/
def mergePaths (bpath path : List Char) : List Char :=
  let baseParts0 := splitChar '/' bpath
  let baseParts := if baseParts0.getLastD [] ≠ [] then baseParts0.dropLast else baseParts0
  let segments :=
    if path.take 1 = ['/'] then splitChar '/' path
    else filterMiddle (baseParts ++ splitChar '/' path)
  let resolved := segments.foldl
    (fun acc seg =>
      if seg = "..".toList then acc.dropLast
      else if seg = ".".toList then acc
      else acc ++ [seg]) []
  let resolved :=
    if segments.getLastD [] = ".".toList ∨ segments.getLastD [] = "..".toList then
      resolved ++ [[]]
    else resolved
  let joined := List.intercalate ['/'] resolved
  if joined = [] then ['/'] else joined

/-- Model of `urllib.parse.urljoin(base, url)`. -/
def urljoin (base url : List Char) : List Char :=
  if base = [] then url
  else if url = [] then base
  else
    let b := urlparse base
    let r := urlparseD url b.scheme
    if r.scheme ≠ b.scheme ∨ r.scheme ∉ usesRelative then url
    else if r.scheme ∈ usesNetloc ∧ r.netloc ≠ [] then
      urlunparse ⟨r.scheme, r.netloc, r.path, r.params, r.query, r.fragment⟩
    else
      let netloc := if r.scheme ∈ usesNetloc then b.netloc else r.netloc
      if r.path = [] ∧ r.params = [] then
        urlunparse ⟨r.scheme, netloc, b.path, b.params,
                    (if r.query = [] then b.query else r.query), r.fragment⟩
      else
        urlunparse ⟨r.scheme, netloc, mergePaths b.path r.path, r.params, r.query,
                    r.fragment⟩

-- Sanity checks of `urljoin` against CPython behaviour.
example : urljoin "http://h/p".toList "i.png".toList = "http://h/i.png".toList := by decide
example : urljoin "http://h/a/b".toList "../c".toList = "http://h/c".toList := by decide
example : urljoin "http://h/a/b".toList "/x/y".toList = "http://h/x/y".toList := by decide
example : urljoin "http://h/p".toList "ftp://x/y".toList = "ftp://x/y".toList := by decide
example : urljoin "http://h/p".toList "//other/i.png".toList =
    "http://other/i.png".toList := by decide
example : urljoin "http://h/p".toList "https://other/i.png".toList =
    "https://other/i.png".toList := by decide
example : urljoin "http://h/p/q".toList "#frag".toList = "http://h/p/q#frag".toList := by
  decide

/-- Model of `ImageCrawler._is_same_domain`; `base` is the crawler's
`base_url` (the input URL with trailing slashes stripped). -/
def is_same_domain (base u : List Char) : Bool :=
  ((urlparse u).netloc == (urlparse base).netloc) || ((urlparse u).netloc == [])

/-- The crawl-loop guard on image URLs:
`self._is_same_domain(img_url) or img_url.startswith("http")`. -/
def imageGuard (base u : List Char) : Bool :=
  is_same_domain base u || "http".toList.isPrefixOf u

example : imageGuard "http://h".toList "http://other/i.png".toList = true := by decide
example : imageGuard "http://h".toList "ftp://other/i.png".toList = false := by decide

theorem append_cons_assoc (s : List Char) (c : Char) (u z : List Char) :
    (s ++ c :: u) ++ z = s ++ c :: (u ++ z) := by simp

theorem urlunsplit_scheme_shape (s n p q f : List Char) (h : s ≠ []) :
    ∃ rest, urlunsplit s n p q f = s ++ ':' :: rest := by
  simp only [urlunsplit]
  rw [if_pos h]
  by_cases hf : f = []
  · by_cases hq : q = []
    · rw [if_neg (show ¬f ≠ [] by simp [hf]), if_neg (show ¬q ≠ [] by simp [hq])]
      exact ⟨_, rfl⟩
    · rw [if_neg (show ¬f ≠ [] by simp [hf]), if_pos (show q ≠ [] from hq)]
      rw [append_cons_assoc]
      exact ⟨_, rfl⟩
  · by_cases hq : q = []
    · rw [if_pos (show f ≠ [] from hf), if_neg (show ¬q ≠ [] by simp [hq])]
      rw [append_cons_assoc]
      exact ⟨_, rfl⟩
    · rw [if_pos (show f ≠ [] from hf), if_pos (show q ≠ [] from hq)]
      rw [append_cons_assoc, append_cons_assoc]
      exact ⟨_, rfl⟩

theorem http_isPrefixOf {s : List Char} (rest : List Char)
    (h : s = "http".toList ∨ s = "https".toList) :
    "http".toList.isPrefixOf (s ++ ':' :: rest) = true := by
  rcases h with h | h <;> subst h
  · exact List.isPrefixOf_iff_prefix.mpr ⟨':' :: rest, rfl⟩
  · have hshape : "https".toList ++ ':' :: rest = "http".toList ++ 's' :: ':' :: rest := rfl
    rw [hshape]
    exact List.isPrefixOf_iff_prefix.mpr ⟨'s' :: ':' :: rest, rfl⟩

/-- Claim C10 (amended): the crawl-loop guard
(`_is_same_domain(img_url) or img_url.startswith("http")`) accepts every
extracted image URL whose `src` either declares no scheme (relative URLs,
including host-relative `//...` ones) or declares the page's own http(s)
scheme — resolution via `urljoin` then yields a URL starting with `http`.
The unrestricted claim ("a download is attempted for every extracted
image") is refuted by `image_guard_cex`: an `<img>` `src` that is absolute
with a non-http scheme on a foreign host is extracted but skipped. -/
theorem image_guard_accepts (base page src : List Char)
    (hb : (urlparse page).scheme = "http".toList ∨ (urlparse page).scheme = "https".toList)
    (hr : (urlparse src).scheme = [] ∨ (urlparse src).scheme = (urlparse page).scheme)
    (hsrc : src ≠ []) :
    imageGuard base (urljoin page src) = true := by
  have hpage : page ≠ [] := by
    intro h
    rw [h] at hb
    rcases hb with hb | hb <;> exact absurd hb (by decide)
  have hbne : (urlparse page).scheme ≠ [] := by
    rcases hb with hb | hb <;> rw [hb] <;> decide
  have hscheme : (urlparseD src (urlparse page).scheme).scheme = (urlparse page).scheme := by
    rcases hr with hr | hr
    · simp [urlparseD, hr]
    · by_cases hown : (urlparse src).scheme = []
      · simp [urlparseD, hown]
      · simp [urlparseD, hown, hr, hbne]
  have husesrel : (urlparse page).scheme ∈ usesRelative := by
    rcases hb with hb | hb <;> rw [hb] <;> decide
  have hpref : ∀ r : ParseResult, r.scheme = (urlparse page).scheme →
      "http".toList.isPrefixOf (urlunparse r) = true := by
    intro r hrs
    obtain ⟨rest, hrest⟩ := urlunsplit_scheme_shape r.scheme r.netloc
      (if r.params ≠ [] then r.path ++ ';' :: r.params else r.path) r.query r.fragment
      (by rw [hrs]; exact hbne)
    rw [urlunparse, hrest, hrs]
    exact http_isPrefixOf rest hb
  have hguard : ∀ u, "http".toList.isPrefixOf u = true → imageGuard base u = true := by
    intro u hu
    unfold imageGuard
    rw [hu]
    simp
  simp only [urljoin]
  rw [if_neg hpage, if_neg hsrc,
      if_neg (by
        push_neg
        refine ⟨hscheme, ?_⟩
        rw [hscheme]
        exact husesrel)]
  by_cases h1 : (urlparseD src (urlparse page).scheme).scheme ∈ usesNetloc ∧
      (urlparseD src (urlparse page).scheme).netloc ≠ []
  · rw [if_pos h1]
    exact hguard _ (hpref _ hscheme)
  · rw [if_neg h1]
    by_cases h2 : (urlparseD src (urlparse page).scheme).path = [] ∧
        (urlparseD src (urlparse page).scheme).params = []
    · rw [if_pos h2]
      exact hguard _ (hpref _ hscheme)
    · rw [if_neg h2]
      exact hguard _ (hpref _ hscheme)

/-- Witness for `image_guard_accepts`. -/
theorem image_guard_accepts_witness :
    ((urlparse "http://h/p".toList).scheme = "http".toList ∨
      (urlparse "http://h/p".toList).scheme = "https".toList) ∧
    ((urlparse "img/i.png".toList).scheme = [] ∨
      (urlparse "img/i.png".toList).scheme = (urlparse "http://h/p".toList).scheme) ∧
    "img/i.png".toList ≠ [] ∧
    imageGuard "http://h".toList (urljoin "http://h/p".toList "img/i.png".toList) = true :=
  ⟨Or.inl (by decide), Or.inl (by decide), by decide,
   image_guard_accepts "http://h".toList "http://h/p".toList "img/i.png".toList
     (Or.inl (by decide)) (Or.inl (by decide)) (by decide)⟩

/-- Python's substring test `needle in hay` for strings. -/
def hasSubstring (needle : List Char) : List Char → Bool
  | [] => needle.isPrefixOf []
  | c :: t => needle.isPrefixOf (c :: t) || hasSubstring needle t

/-- Counterexample to claim C10 as stated: an extracted `<img>` URL with a
foreign scheme and a foreign host fails the crawl-loop guard, so no download
is attempted for it.  `urljoin` returns a non-http-scheme `src` unchanged,
it is not webp-filtered at extraction, yet the guard is false. -/
theorem image_guard_cex :
    urljoin "http://h/p".toList "ftp://other/i.png".toList = "ftp://other/i.png".toList ∧
    imageGuard "http://h".toList
      (urljoin "http://h/p".toList "ftp://other/i.png".toList) = false ∧
    hasSubstring ".webp".toList (List.map Char.toLower "ftp://other/i.png".toList) = false := by
  decide

/-! ### Model of `ImageCrawler._download_image`, `ImageCrawler.crawl`, `main` -/

/-- Network requests issued by the crawler (a ghost log of `session` calls
and the robots.txt fetch). -/
inductive NetEvent where
  | robots : NetEvent
  | pageGet : List Char → NetEvent
  | imgHead : List Char → NetEvent
  | imgGet : List Char → NetEvent
deriving DecidableEq, Repr

/-- Abstract result of fetching one image URL: the staged byte count, the
decoded dimensions (`none` models a PIL decode failure or missing PIL data),
the md5 digest of the first 64KB ([] models Python's '' on a hashing
failure; byte-identical 64KB prefixes give equal digests), and whether an
uncaught exception occurs after the temporary file has been written (an
IO error during stat/read).  `none` at the environment level models an
exception during the GET itself, before the temporary file exists. -/
structure ImgData where
  sizeBytes : Nat
  dims : Option (Int × Int)
  hashHex : List Char
  failAfterWrite : Bool
deriving DecidableEq, Repr

/-- Abstract environment: what the network and the HTML extractor return.
`pageLinks` / `pageImages` stand for the outputs of `_find_links` /
`_find_images` on the fetched page (HTML parsing itself is not modelled;
the lists are arbitrary).  `fetchOk u = false` models a
`requests.RequestException` during the page GET; `headCT` is the
Content-Type of a HEAD request (`none` models the HEAD raising). -/
structure CrawlEnv where
  allowed : List Char → Bool
  fetchOk : List Char → Bool
  pageLinks : List Char → List (List Char)
  pageImages : List Char → List (List Char)
  headCT : List Char → Option (List Char)
  imgData : List Char → Option ImgData

/-- Crawler configuration (constructor arguments plus `crawl` arguments).
Numeric values are `Int` because `main` performs no validation and Python
ints can be negative. -/
structure CrawlConfig where
  baseUrl : List Char
  minSizeKb : Int
  minW : Int
  minH : Int
  noDuplicates : Bool
  pilAvailable : Bool
  maxPages : Int
  maxDepth : Int
deriving DecidableEq, Repr

/-- Mutable crawler state.  `visited` is `self.visited_urls` in insertion
order (a Python set, used only through membership tests), `disk` the set of
filenames present in the output directory, `fetchLog` a ghost log of page
GET attempts with their depth, `netLog` a ghost log of image HEAD/GET
requests. -/
structure CrawlState where
  visited : List (List Char)
  toVisit : List (List Char × Int)
  downloaded : List (List Char)
  failed : List (List Char)
  seenHashes : List (List Char)
  skipWebp : Nat
  skipSize : Nat
  skipDims : Nat
  skipDup : Nat
  skipExists : Nat
  disk : List (List Char)
  netLog : List NetEvent
  fetchLog : List (List Char × Int)
deriving DecidableEq, Repr

def insertFile (f : List Char) (d : List (List Char)) : List (List Char) :=
  if f ∈ d then d else f :: d

def removeFile (f : List Char) (d : List (List Char)) : List (List Char) :=
  d.filter (· != f)

/-- `set.add` for the seen-hash set. -/
def addHash (h : List Char) (s : List (List Char)) : List (List Char) :=
  if h ∈ s then s else s ++ [h]

/-- `os.path.basename` on a POSIX path. -/
def basenameOf (p : List Char) : List Char :=
  (p.reverse.takeWhile (· != '/')).reverse

/-- `re.sub(r'[<>:"/\\|?*]', "_", filename)`. -/
def sanitizeChar (c : Char) : Char :=
  if c = '<' ∨ c = '>' ∨ c = ':' ∨ c = '"' ∨ c = '/' ∨ c = '\\' ∨ c = '|' ∨
     c = '?' ∨ c = '*' then '_' else c

def sanitizeFilename (l : List Char) : List Char := l.map sanitizeChar

/-- Filename derivation in `_download_image`, through the webp checks and
Content-Type sniffing.  Returns the HEAD requests performed and `none` when
a webp check rejects the URL (the caller then counts the `webp` skip).
When the HEAD raises (`headCT = none`) the `except: pass` keeps the default
`.jpg` extension and skips the content-type webp check. -/
def resolveFilename (env : CrawlEnv) (url : List Char) (nDownloaded : Nat) :
    List NetEvent × Option (List Char) :=
  let fname := basenameOf (urlparse url).path
  if ".webp".toList.isSuffixOf (fname.map Char.toLower) ||
     hasSubstring ".webp".toList (url.map Char.toLower) then
    ([], none)
  else if fname = [] ∨ '.' ∉ fname then
    match env.headCT url with
    | some ct =>
      if hasSubstring "webp".toList ct then ([NetEvent.imgHead url], none)
      else
        let ext := if hasSubstring "png".toList ct then ".png".toList
                   else if hasSubstring "gif".toList ct then ".gif".toList
                   else ".jpg".toList
        ([NetEvent.imgHead url],
         some (sanitizeFilename ("image_".toList ++ (Nat.repr nDownloaded).toList ++ ext)))
    | none =>
      ([NetEvent.imgHead url],
       some (sanitizeFilename
         ("image_".toList ++ (Nat.repr nDownloaded).toList ++ ".jpg".toList)))
  else ([], some (sanitizeFilename fname))

/-- Final stage of `_download_image`: `temp_filepath.rename(filepath)` and
the success bookkeeping. -/
def renameStage (url fn tmp : List Char) (st : CrawlState) : CrawlState × Bool :=
  ({ st with disk := insertFile fn (removeFile tmp st.disk),
             downloaded := st.downloaded ++ [url] }, true)

/-- Duplicate-detection stage of `_download_image` (only when
`no_duplicates` is set); an empty digest (hash failure) skips the check but
is still added to the seen set, as in the Python code. -/
def dupStage (cfg : CrawlConfig) (d : ImgData) (url fn tmp : List Char)
    (st : CrawlState) : CrawlState × Bool :=
  if cfg.noDuplicates then
    if d.hashHex ≠ [] ∧ d.hashHex ∈ st.seenHashes then
      ({ st with disk := removeFile tmp st.disk, skipDup := st.skipDup + 1 }, false)
    else
      renameStage url fn tmp { st with seenHashes := addHash d.hashHex st.seenHashes }
  else renameStage url fn tmp st

/-- Dimension stage of `_download_image`: only run when PIL is available; a
decode failure (`dims = none`) passes through. -/
def dimsStage (cfg : CrawlConfig) (d : ImgData) (url fn tmp : List Char)
    (st : CrawlState) : CrawlState × Bool :=
  if cfg.pilAvailable then
    match d.dims with
    | some (w, h) =>
      if w < cfg.minW ∨ h < cfg.minH then
        ({ st with disk := removeFile tmp st.disk, skipDims := st.skipDims + 1 }, false)
      else dupStage cfg d url fn tmp st
    | none => dupStage cfg d url fn tmp st
  else dupStage cfg d url fn tmp st

/-- Model of `ImageCrawler._download_image`.  The size comparison
`st_size / 1024 < min_size_kb` is exact for the float division by 1024, so
it is modelled as `sizeBytes < minSizeKb * 1024` over the integers.  The
temporary name `filepath.with_suffix(filepath.suffix + ".tmp")` is the
filename with `.tmp` appended. -/
def download_image (env : CrawlEnv) (cfg : CrawlConfig) (url : List Char)
    (st : CrawlState) : CrawlState × Bool :=
  let rf := resolveFilename env url st.downloaded.length
  let st := { st with netLog := st.netLog ++ rf.1 }
  match rf.2 with
  | none => ({ st with skipWebp := st.skipWebp + 1 }, false)
  | some fn =>
    if fn ∈ st.disk then ({ st with skipExists := st.skipExists + 1 }, true)
    else
      let st := { st with netLog := st.netLog ++ [NetEvent.imgGet url] }
      match env.imgData url with
      | none => ({ st with failed := st.failed ++ [url] }, false)
      | some d =>
        let tmp := fn ++ ".tmp".toList
        let st := { st with disk := insertFile tmp st.disk }
        if d.failAfterWrite then
          ({ st with disk := removeFile tmp st.disk, failed := st.failed ++ [url] }, false)
        else if (d.sizeBytes : Int) < cfg.minSizeKb * 1024 then
          ({ st with disk := removeFile tmp st.disk, skipSize := st.skipSize + 1 }, false)
        else dimsStage cfg d url fn tmp st

/-- The image loop of `crawl`: download every extracted image URL passing
the same-domain-or-http guard. -/
def downloadAll (env : CrawlEnv) (cfg : CrawlConfig) (imgs : List (List Char))
    (st : CrawlState) : CrawlState :=
  imgs.foldl (fun s u => if imageGuard cfg.baseUrl u then (download_image env cfg u s).1 else s)
    st

/-- Link enqueueing in `crawl`: append each link not already visited whose
exact (url, depth+1) pair is not already in the (growing) frontier. -/
def enqueueLinks (visited : List (List Char)) (tv : List (List Char × Int))
    (links : List (List Char)) (d : Int) : List (List Char × Int) :=
  links.foldl
    (fun acc link => if link ∉ visited ∧ (link, d + 1) ∉ acc then acc ++ [(link, d + 1)]
      else acc) tv

/-- One iteration of the `while to_visit` loop in `crawl`, including the
inlined `_get_page` (visited check, robots check, GET, 2xx insertion). -/
def crawlStep (env : CrawlEnv) (cfg : CrawlConfig) (st : CrawlState) : CrawlState :=
  match st.toVisit with
  | [] => st
  | (u, d) :: rest =>
    let st1 := { st with toVisit := rest }
    if d > cfg.maxDepth then st1
    else if u ∈ st1.visited then st1
    else if ¬ env.allowed u then st1
    else
      let st2 := { st1 with netLog := st1.netLog ++ [NetEvent.pageGet u],
                            fetchLog := st1.fetchLog ++ [(u, d)] }
      if env.fetchOk u then
        let st3 := { st2 with visited := st2.visited ++ [u] }
        let st4 := downloadAll env cfg (env.pageImages u) st3
        if d < cfg.maxDepth then
          { st4 with toVisit := enqueueLinks st4.visited st4.toVisit (env.pageLinks u) d }
        else st4
      else st2

/-- The `while to_visit and len(self.visited_urls) < max_pages` loop,
fuel-indexed: every real run is `crawlLoop` with enough fuel, and the
invariants below hold for every fuel, hence at every point of the run. -/
def crawlLoop (env : CrawlEnv) (cfg : CrawlConfig) : Nat → CrawlState → CrawlState
  | 0, st => st
  | fuel + 1, st =>
    if st.toVisit ≠ [] ∧ (st.visited.length : Int) < cfg.maxPages then
      crawlLoop env cfg fuel (crawlStep env cfg st)
    else st

/-- Initial crawler state: `disk0` is the pre-existing content of the
output directory. -/
def initState (cfg : CrawlConfig) (disk0 : List (List Char)) : CrawlState :=
  ⟨[], [(cfg.baseUrl, 0)], [], [], [], 0, 0, 0, 0, 0, disk0, [], []⟩

def crawl (env : CrawlEnv) (cfg : CrawlConfig) (disk0 : List (List Char))
    (fuel : Nat) : CrawlState :=
  crawlLoop env cfg fuel (initState cfg disk0)

/-- CLI arguments of `main`; `delay` is restricted to integral values. -/
structure Args where
  url : List Char
  output : List Char
  delay : Int
  maxPages : Int
  maxDepth : Int
  minSize : Int
  minW : Int
  minH : Int
  noDuplicates : Bool
deriving DecidableEq, Repr

/-- `args.url.startswith(("http://", "https://"))`. -/
def schemeOk (u : List Char) : Bool :=
  "http://".toList.isPrefixOf u || "https://".toList.isPrefixOf u

def cfgOfArgs (a : Args) (pil : Bool) : CrawlConfig :=
  ⟨rstripSlashes a.url, a.minSize, a.minW, a.minH, a.noDuplicates, pil, a.maxPages,
   a.maxDepth⟩

/-- Model of `main`.  The only pre-network validation is the URL scheme
check; on failure the process exits 1 before any network activity.
Otherwise the crawler is constructed (its `__init__` fetches robots.txt —
network activity) and the crawl runs.  `time.sleep(self.delay)` in
`_get_page` raises `ValueError` for a negative delay; the surrounding
`try` catches only `requests.RequestException`, and neither `crawl` nor
`main` catches anything, so the process then dies with exit code 1 and
prints no summary.  That sleep runs exactly when a page-fetch attempt is
reached — the model appends to the ghost fetch log at the same program
point — while the sleep in `_download_image` sits inside an
`except Exception` handler and is in any case unreachable with a negative
delay, a page fetch preceding every image download.  So the real run
aborts if and only if the delay is negative and the fetch log of the run
is non-empty; otherwise the summary prints and the process exits 0.
Returned: (exit code, whether any network request was attempted, whether
the summary was printed).  Not modelled: OS-level crashes (unwritable
output directory — raised before any network). -/
def mainModel (a : Args) (pil : Bool) (env : CrawlEnv) (disk0 : List (List Char))
    (fuel : Nat) : Int × Bool × Bool :=
  if ¬ schemeOk a.url then (1, false, false)
  else if a.delay < 0 ∧ (crawl env (cfgOfArgs a pil) disk0 fuel).fetchLog ≠ [] then
    (1, true, false)
  else (0, true, true)

/-- Concrete three-page web used in the crawl counterexamples: the base page
links to `/l` (whose fetch always fails) and `/p`; `/p` links to `/l`
again.  No images anywhere. -/
def envEx : CrawlEnv :=
  { allowed := fun _ => true
    fetchOk := fun u => u != "http://h/l".toList
    pageLinks := fun u =>
      if u = "http://h".toList then ["http://h/l".toList, "http://h/p".toList]
      else if u = "http://h/p".toList then ["http://h/l".toList]
      else []
    pageImages := fun _ => []
    headCT := fun _ => none
    imgData := fun _ => none }

def cfgEx : CrawlConfig :=
  ⟨"http://h".toList, 10, 100, 100, false, true, 10, 2⟩

-- Sanity: the crawl terminates with the expected visit set.
example : (crawl envEx cfgEx [] 10).visited =
    ["http://h".toList, "http://h/p".toList] := by decide

/-- Counterexample to claim C2 as stated: a URL whose page fetch fails is
not inserted into the visited set, so when another page rediscovers it, it
is fetched again — `http://h/l` appears twice in the log of page GETs. -/
theorem crawl_fetch_twice_cex :
    ¬ ((crawl envEx cfgEx [] 10).fetchLog.map Prod.fst).Nodup ∧
    (crawl envEx cfgEx [] 10).fetchLog.map Prod.fst =
      ["http://h".toList, "http://h/l".toList, "http://h/p".toList,
       "http://h/l".toList] := by
  decide

/-- A second concrete web: the base links to `/p` then `/l`; `/p` links to
`/l` again, and every fetch succeeds. -/
def envEx2 : CrawlEnv :=
  { allowed := fun _ => true
    fetchOk := fun _ => true
    pageLinks := fun u =>
      if u = "http://h".toList then ["http://h/p".toList, "http://h/l".toList]
      else if u = "http://h/p".toList then ["http://h/l".toList]
      else []
    pageImages := fun _ => []
    headCT := fun _ => none
    imgData := fun _ => none }

/-- Counterexample to claim C3 as stated: the frontier dedup check is on
exact (url, depth) pairs, so the same URL can be enqueued twice at
different depths — after two steps the frontier holds `http://h/l` at
depth 1 and at depth 2. -/
theorem crawl_enqueue_pair_cex :
    ¬ ((crawlLoop envEx2 cfgEx 2 (initState cfgEx [])).toVisit.map Prod.fst).Nodup ∧
    (crawlLoop envEx2 cfgEx 2 (initState cfgEx [])).toVisit =
      [("http://h/l".toList, 1), ("http://h/l".toList, 2)] := by
  decide


theorem renameStage_frame (url fn tmp : List Char) (st : CrawlState) :
    (renameStage url fn tmp st).1.visited = st.visited ∧
    (renameStage url fn tmp st).1.toVisit = st.toVisit ∧
    (renameStage url fn tmp st).1.fetchLog = st.fetchLog :=
  ⟨rfl, rfl, rfl⟩

theorem dupStage_frame (cfg : CrawlConfig) (d : ImgData) (url fn tmp : List Char)
    (st : CrawlState) :
    (dupStage cfg d url fn tmp st).1.visited = st.visited ∧
    (dupStage cfg d url fn tmp st).1.toVisit = st.toVisit ∧
    (dupStage cfg d url fn tmp st).1.fetchLog = st.fetchLog := by
  unfold dupStage
  split_ifs with h1 h2
  · exact ⟨rfl, rfl, rfl⟩
  · exact ⟨rfl, rfl, rfl⟩
  · exact ⟨rfl, rfl, rfl⟩

theorem dimsStage_frame (cfg : CrawlConfig) (d : ImgData) (url fn tmp : List Char)
    (st : CrawlState) :
    (dimsStage cfg d url fn tmp st).1.visited = st.visited ∧
    (dimsStage cfg d url fn tmp st).1.toVisit = st.toVisit ∧
    (dimsStage cfg d url fn tmp st).1.fetchLog = st.fetchLog := by
  unfold dimsStage
  by_cases hp : cfg.pilAvailable = true
  · rw [if_pos hp]
    split
    · rename_i w h heq
      split_ifs with h2
      · exact ⟨rfl, rfl, rfl⟩
      · exact dupStage_frame cfg d url fn tmp st
    · exact dupStage_frame cfg d url fn tmp st
  · rw [if_neg hp]
    exact dupStage_frame cfg d url fn tmp st

/-- `_download_image` never touches the visited set, the frontier or the
page-fetch log. -/
theorem download_image_frame (env : CrawlEnv) (cfg : CrawlConfig) (url : List Char)
    (st : CrawlState) :
    (download_image env cfg url st).1.visited = st.visited ∧
    (download_image env cfg url st).1.toVisit = st.toVisit ∧
    (download_image env cfg url st).1.fetchLog = st.fetchLog := by
  simp only [download_image]
  split
  · exact ⟨rfl, rfl, rfl⟩
  · rename_i fn heq
    split_ifs with hex
    · exact ⟨rfl, rfl, rfl⟩
    · split
      · exact ⟨rfl, rfl, rfl⟩
      · rename_i d heq2
        split_ifs with hfw hsz
        · exact ⟨rfl, rfl, rfl⟩
        · exact ⟨rfl, rfl, rfl⟩
        · exact dimsStage_frame cfg d url fn _ _

theorem downloadAll_frame (env : CrawlEnv) (cfg : CrawlConfig) (imgs : List (List Char))
    (st : CrawlState) :
    (downloadAll env cfg imgs st).visited = st.visited ∧
    (downloadAll env cfg imgs st).toVisit = st.toVisit ∧
    (downloadAll env cfg imgs st).fetchLog = st.fetchLog := by
  induction imgs generalizing st with
  | nil => exact ⟨rfl, rfl, rfl⟩
  | cons u us ih =>
    have hstep : downloadAll env cfg (u :: us) st =
        downloadAll env cfg us
          (if imageGuard cfg.baseUrl u then (download_image env cfg u st).1 else st) := rfl
    rw [hstep]
    by_cases hg : imageGuard cfg.baseUrl u = true
    · rw [if_pos hg]
      obtain ⟨ha, hb, hc⟩ := ih (download_image env cfg u st).1
      obtain ⟨hd, he, hf2⟩ := download_image_frame env cfg u st
      exact ⟨ha.trans hd, hb.trans he, hc.trans hf2⟩
    · rw [if_neg hg]
      exact ih st

/-- One crawl-loop iteration leaves the visited set unchanged or appends
a single previously-unvisited URL (the page just fetched with success). -/
theorem crawlStep_visited (env : CrawlEnv) (cfg : CrawlConfig) (st : CrawlState) :
    (crawlStep env cfg st).visited = st.visited ∨
    ∃ u, u ∉ st.visited ∧ (crawlStep env cfg st).visited = st.visited ++ [u] := by
  simp only [crawlStep]
  split
  · exact Or.inl rfl
  · rename_i u d rest heq
    split_ifs with h1 h2 h3 h4 h5 <;> try exact Or.inl rfl
    all_goals
      refine Or.inr ⟨u, by assumption, ?_⟩
    all_goals
      obtain ⟨ha, _, _⟩ := downloadAll_frame env cfg (env.pageImages u) _
    all_goals
      simpa using ha

/-- One crawl-loop iteration appends at most the just-fetched page (at a
depth that passed the `depth > max_depth` guard) to the fetch log. -/
theorem crawlStep_fetchLog (env : CrawlEnv) (cfg : CrawlConfig) (st : CrawlState) :
    (crawlStep env cfg st).fetchLog = st.fetchLog ∨
    ∃ u d, ¬ d > cfg.maxDepth ∧
      (crawlStep env cfg st).fetchLog = st.fetchLog ++ [(u, d)] := by
  simp only [crawlStep]
  split
  · exact Or.inl rfl
  · rename_i u d rest heq
    split_ifs with h1 h2 h3 h4 h5 <;> try exact Or.inl rfl
    all_goals
      refine Or.inr ⟨u, d, by assumption, ?_⟩
    all_goals
      first
      | rfl
      | (obtain ⟨_, _, hc⟩ := downloadAll_frame env cfg (env.pageImages u) _
         simpa using hc)

theorem crawlLoop_visited_bound (env : CrawlEnv) (cfg : CrawlConfig) (fuel : Nat)
    (st : CrawlState) (hmp : (st.visited.length : Int) ≤ cfg.maxPages) :
    ((crawlLoop env cfg fuel st).visited.length : Int) ≤ cfg.maxPages := by
  induction fuel generalizing st with
  | zero => exact hmp
  | succ n ih =>
    unfold crawlLoop
    split_ifs with h
    · apply ih
      rcases crawlStep_visited env cfg st with h1 | ⟨u, _, h2⟩
      · rw [h1]
        exact le_of_lt h.2
      · rw [h2]
        have hlen : (((st.visited ++ [u]).length : Nat) : Int) =
            (st.visited.length : Int) + 1 := by
          simp
        rw [hlen]
        exact Int.add_one_le_iff.mpr h.2
    · exact hmp

theorem crawlLoop_visited_nodup (env : CrawlEnv) (cfg : CrawlConfig) (fuel : Nat)
    (st : CrawlState) (hnd : st.visited.Nodup) :
    (crawlLoop env cfg fuel st).visited.Nodup := by
  induction fuel generalizing st with
  | zero => exact hnd
  | succ n ih =>
    unfold crawlLoop
    split_ifs with h
    · apply ih
      rcases crawlStep_visited env cfg st with h1 | ⟨u, hu, h2⟩
      · rw [h1]
        exact hnd
      · rw [h2]
        simp [List.nodup_append, hnd, hu]
    · exact hnd

theorem crawlLoop_fetchLog_depth (env : CrawlEnv) (cfg : CrawlConfig) (fuel : Nat)
    (st : CrawlState) (hst : ∀ p ∈ st.fetchLog, p.2 ≤ cfg.maxDepth) :
    ∀ p ∈ (crawlLoop env cfg fuel st).fetchLog, p.2 ≤ cfg.maxDepth := by
  induction fuel generalizing st with
  | zero => exact hst
  | succ n ih =>
    unfold crawlLoop
    split_ifs with h
    · apply ih
      rcases crawlStep_fetchLog env cfg st with h1 | ⟨u, d, hd, h2⟩
      · rw [h1]
        exact hst
      · rw [h2]
        intro p hp
        rcases List.mem_append.mp hp with hp | hp
        · exact hst p hp
        · have hpu : p = (u, d) := by simpa using hp
          rw [hpu]
          exact Int.not_lt.mp hd
    · exact hst

/-- Claim C2 (amended): for runs with `maxPages ≥ 0` the visited set never
exceeds `maxPages` elements (for every fuel, hence at every point of the
run), and no URL is ever *successfully* fetched as a page twice: `visited`
records the successful page GETs in order and has no duplicates.  The
claim's stronger "no URL appears twice in the fetch log" is refuted by
`crawl_fetch_twice_cex`: a URL whose fetch fails is not added to
`visited_urls` and is fetched again when rediscovered. -/
theorem crawl_visited_bound_nodup (env : CrawlEnv) (cfg : CrawlConfig)
    (disk0 : List (List Char)) (fuel : Nat) (hmp : 0 ≤ cfg.maxPages) :
    ((crawl env cfg disk0 fuel).visited.length : Int) ≤ cfg.maxPages ∧
    (crawl env cfg disk0 fuel).visited.Nodup := by
  constructor
  · apply crawlLoop_visited_bound
    simpa [initState] using hmp
  · apply crawlLoop_visited_nodup
    simp [initState]

/-- Witness for `crawl_visited_bound_nodup`. -/
theorem crawl_visited_bound_nodup_witness :
    (0 : Int) ≤ cfgEx.maxPages ∧
    ((crawl envEx cfgEx [] 10).visited.length : Int) ≤ cfgEx.maxPages ∧
    (crawl envEx cfgEx [] 10).visited.Nodup :=
  ⟨by decide, crawl_visited_bound_nodup envEx cfgEx [] 10 (by decide)⟩

/-- Claim C3 (amended): (i) during link processing a link is appended to
the frontier only if it is not in the visited set and the exact
(url, depth+1) *pair* is not already in the frontier — the same URL may
occupy the frontier at two different depths, which refutes the claim's
"not already present in the frontier" reading (`crawl_enqueue_pair_cex`);
(ii) the enqueue check keeps the frontier free of duplicate pairs; and
(iii) no page is ever fetched at a depth greater than `maxDepth` (link
processing runs only when `depth < maxDepth`, and the loop skips any
frontier entry with `depth > maxDepth` before fetching). -/
theorem crawl_enqueue_and_depth :
    (∀ (visited : List (List Char)) (tv : List (List Char × Int))
        (links : List (List Char)) (d : Int) (e : List Char × Int),
        e ∈ enqueueLinks visited tv links d →
        e ∈ tv ∨ (e.2 = d + 1 ∧ e.1 ∉ visited)) ∧
    (∀ (visited : List (List Char)) (tv : List (List Char × Int))
        (links : List (List Char)) (d : Int),
        tv.Nodup → (enqueueLinks visited tv links d).Nodup) ∧
    (∀ (env : CrawlEnv) (cfg : CrawlConfig) (disk0 : List (List Char)) (fuel : Nat),
        ∀ p ∈ (crawl env cfg disk0 fuel).fetchLog, p.2 ≤ cfg.maxDepth) := by
  refine ⟨?_, ?_, ?_⟩
  · intro visited tv links d e he
    induction links generalizing tv with
    | nil => exact Or.inl he
    | cons link ls ih =>
      have hstep : enqueueLinks visited tv (link :: ls) d =
          enqueueLinks visited
            (if link ∉ visited ∧ (link, d + 1) ∉ tv then tv ++ [(link, d + 1)] else tv)
            ls d := rfl
      rw [hstep] at he
      by_cases hc : link ∉ visited ∧ (link, d + 1) ∉ tv
      · rw [if_pos hc] at he
        rcases ih _ he with h1 | h1
        · rcases List.mem_append.mp h1 with h2 | h2
          · exact Or.inl h2
          · have he2 : e = (link, d + 1) := by simpa using h2
            rw [he2]
            exact Or.inr ⟨rfl, hc.1⟩
        · exact Or.inr h1
      · rw [if_neg hc] at he
        exact ih _ he
  · intro visited tv links d hnd
    induction links generalizing tv with
    | nil => exact hnd
    | cons link ls ih =>
      have hstep : enqueueLinks visited tv (link :: ls) d =
          enqueueLinks visited
            (if link ∉ visited ∧ (link, d + 1) ∉ tv then tv ++ [(link, d + 1)] else tv)
            ls d := rfl
      rw [hstep]
      by_cases hc : link ∉ visited ∧ (link, d + 1) ∉ tv
      · rw [if_pos hc]
        apply ih
        simp [List.nodup_append, hnd, hc.2]
      · rw [if_neg hc]
        exact ih _ hnd
  · intro env cfg disk0 fuel
    apply crawlLoop_fetchLog_depth
    intro p hp
    simp [initState] at hp

/-- Witness for `crawl_enqueue_and_depth`: instantiates part (i) at a
concrete enqueue and part (iii) at a concrete crawl whose fetch log is
non-empty. -/
theorem crawl_enqueue_and_depth_witness :
    (("http://h/l".toList, (1 : Int)) ∈
        enqueueLinks ["http://h".toList] [] ["http://h/l".toList] 0 ∧
      (("http://h/l".toList, (1 : Int)) ∈ ([] : List (List Char × Int)) ∨
        ((1 : Int) = 0 + 1 ∧ "http://h/l".toList ∉ ["http://h".toList]))) ∧
    (("http://h".toList, (0 : Int)) ∈ (crawl envEx cfgEx [] 10).fetchLog ∧
      (0 : Int) ≤ cfgEx.maxDepth) :=
  ⟨⟨by decide, crawl_enqueue_and_depth.1 ["http://h".toList] [] ["http://h/l".toList] 0
      ("http://h/l".toList, 1) (by decide)⟩,
   ⟨by decide, crawl_enqueue_and_depth.2.2 envEx cfgEx [] 10 ("http://h".toList, 0)
      (by decide)⟩⟩

theorem removeFile_eq_self (f : List Char) (d : List (List Char)) (h : f ∉ d) :
    removeFile f d = d := by
  unfold removeFile
  apply List.filter_eq_self.mpr
  intro x hx
  simp only [bne_iff_ne, ne_eq, decide_eq_true_eq]
  intro he
  exact h (he ▸ hx)

theorem removeFile_insertFile (f : List Char) (d : List (List Char)) (h : f ∉ d) :
    removeFile f (insertFile f d) = d := by
  unfold insertFile
  rw [if_neg h]
  unfold removeFile
  rw [List.filter_cons_of_neg]
  · exact removeFile_eq_self f d h
  · simp

theorem mem_insertFile (x f : List Char) (d : List (List Char)) :
    x ∈ insertFile f d ↔ x = f ∨ x ∈ d := by
  unfold insertFile
  split_ifs with h
  · constructor
    · exact Or.inr
    · intro hx
      rcases hx with hx | hx
      · exact hx ▸ h
      · exact hx
  · simp

theorem append_tmp_ne (fn : List Char) : fn ++ ".tmp".toList ≠ fn := by
  intro h
  have hlen := congrArg List.length h
  simp at hlen

theorem mem_addHash_self (h : List Char) (s : List (List Char)) :
    h ∈ addHash h s := by
  unfold addHash
  split_ifs with hm
  · exact hm
  · simp

/-- Disk effect of the duplicate/rename stages: a rejection leaves the temp
file removed, a success renames the temp file to the final name. -/
theorem dupStage_disk (cfg : CrawlConfig) (d : ImgData) (url fn tmp : List Char)
    (st : CrawlState) :
    ((dupStage cfg d url fn tmp st).2 = false →
      (dupStage cfg d url fn tmp st).1.disk = removeFile tmp st.disk) ∧
    ((dupStage cfg d url fn tmp st).2 = true →
      (dupStage cfg d url fn tmp st).1.disk = insertFile fn (removeFile tmp st.disk)) := by
  unfold dupStage renameStage
  split_ifs <;> constructor <;> intro h <;> simp_all

/-- Disk effect of the dimension/duplicate/rename pipeline. -/
theorem dimsStage_disk (cfg : CrawlConfig) (d : ImgData) (url fn tmp : List Char)
    (st : CrawlState) :
    ((dimsStage cfg d url fn tmp st).2 = false →
      (dimsStage cfg d url fn tmp st).1.disk = removeFile tmp st.disk) ∧
    ((dimsStage cfg d url fn tmp st).2 = true →
      (dimsStage cfg d url fn tmp st).1.disk = insertFile fn (removeFile tmp st.disk)) := by
  unfold dimsStage
  split_ifs with hp
  · rcases hd : d.dims with _ | ⟨w, h⟩
    · exact dupStage_disk cfg d url fn tmp st
    · simp only []
      split_ifs with hw
      · constructor <;> intro hh <;> simp_all
      · exact dupStage_disk cfg d url fn tmp st
  · exact dupStage_disk cfg d url fn tmp st

/-- Claim C4 (confirmed): provided the temporary name for the attempt is
not itself a pre-existing file, a rejected or failed download leaves the
output directory exactly as it was (every rejecting stage and the
exception path first delete the staged `.tmp` file), and a successful
download either found the file already present or created exactly the
final filename by renaming the fully written temporary, with no `.tmp`
file remaining. -/
theorem download_image_no_partial (env : CrawlEnv) (cfg : CrawlConfig)
    (url : List Char) (st : CrawlState)
    (htmp : ∀ fn, (resolveFilename env url st.downloaded.length).2 = some fn →
      fn ++ ".tmp".toList ∉ st.disk) :
    ((download_image env cfg url st).2 = false →
      (download_image env cfg url st).1.disk = st.disk) ∧
    ((download_image env cfg url st).2 = true →
      (download_image env cfg url st).1.disk = st.disk ∨
      ∃ fn, (resolveFilename env url st.downloaded.length).2 = some fn ∧
        (download_image env cfg url st).1.disk = insertFile fn st.disk ∧
        fn ++ ".tmp".toList ∉ (download_image env cfg url st).1.disk) := by
  simp only [download_image]
  rcases hrf : (resolveFilename env url st.downloaded.length).2 with _ | fn
  · constructor
    · intro _
      rfl
    · intro h
      simp at h
  · have htmp' : fn ++ ".tmp".toList ∉ st.disk := htmp fn hrf
    simp only []
    split_ifs with hin
    · constructor
      · intro h
        simp at h
      · intro _
        exact Or.inl rfl
    · rcases hd : env.imgData url with _ | d
      · constructor
        · intro _
          rfl
        · intro h
          simp at h
      · simp only []
        split_ifs with hfw hsz
        · constructor
          · intro _
            simp only []
            exact removeFile_insertFile _ _ htmp'
          · intro h
            simp at h
        · constructor
          · intro _
            simp only []
            exact removeFile_insertFile _ _ htmp'
          · intro h
            simp at h
        · have hds := dimsStage_disk cfg d url fn (fn ++ ".tmp".toList)
            { st with
                netLog := (st.netLog ++ (resolveFilename env url st.downloaded.length).1) ++
                  [NetEvent.imgGet url],
                disk := insertFile (fn ++ ".tmp".toList) st.disk }
          constructor
          · intro h
            rw [hds.1 h]
            exact removeFile_insertFile _ _ htmp'
          · intro h
            refine Or.inr ⟨fn, rfl, ?_, ?_⟩
            · rw [hds.2 h]
              simp only []
              rw [removeFile_insertFile _ _ htmp']
            · rw [hds.2 h]
              simp only []
              rw [removeFile_insertFile _ _ htmp']
              rw [mem_insertFile]
              push_neg
              exact ⟨append_tmp_ne fn, htmp'⟩

/-- A one-image environment where the download succeeds. -/
def envDl : CrawlEnv :=
  { allowed := fun _ => true
    fetchOk := fun _ => true
    pageLinks := fun _ => []
    pageImages := fun _ => ["http://h/i.png".toList]
    headCT := fun _ => none
    imgData := fun _ => some ⟨200000, some (500, 500), "abcd".toList, false⟩ }

/-- Witness for `download_image_no_partial`. -/
theorem download_image_no_partial_witness :
    ((download_image envDl cfgEx "http://h/i.png".toList (initState cfgEx [])).2 = false →
      (download_image envDl cfgEx "http://h/i.png".toList (initState cfgEx [])).1.disk =
        (initState cfgEx []).disk) ∧
    ((download_image envDl cfgEx "http://h/i.png".toList (initState cfgEx [])).2 = true →
      (download_image envDl cfgEx "http://h/i.png".toList (initState cfgEx [])).1.disk =
        (initState cfgEx []).disk ∨
      ∃ fn, (resolveFilename envDl "http://h/i.png".toList
              (initState cfgEx []).downloaded.length).2 = some fn ∧
        (download_image envDl cfgEx "http://h/i.png".toList (initState cfgEx [])).1.disk =
          insertFile fn (initState cfgEx []).disk ∧
        fn ++ ".tmp".toList ∉
          (download_image envDl cfgEx "http://h/i.png".toList (initState cfgEx [])).1.disk) :=
  download_image_no_partial envDl cfgEx "http://h/i.png".toList (initState cfgEx [])
    (by intro fn _; exact List.not_mem_nil _)

/-- Claim C5 (confirmed): an image whose byte size is below the configured
threshold is rejected at the size stage with exactly one `too_small_size`
skip; no later stage runs, so the dimension and duplicate counters, the
seen-hash set, and the accepted list are untouched — even if the image
would also fail those later stages. -/
theorem size_filter_short_circuit (env : CrawlEnv) (cfg : CrawlConfig)
    (url fn : List Char) (st : CrawlState) (d : ImgData)
    (hrf : (resolveFilename env url st.downloaded.length).2 = some fn)
    (hfn : fn ∉ st.disk)
    (hd : env.imgData url = some d)
    (hfw : d.failAfterWrite = false)
    (hsz : (d.sizeBytes : Int) < cfg.minSizeKb * 1024) :
    (download_image env cfg url st).2 = false ∧
    (download_image env cfg url st).1.skipSize = st.skipSize + 1 ∧
    (download_image env cfg url st).1.skipDims = st.skipDims ∧
    (download_image env cfg url st).1.skipDup = st.skipDup ∧
    (download_image env cfg url st).1.skipWebp = st.skipWebp ∧
    (download_image env cfg url st).1.skipExists = st.skipExists ∧
    (download_image env cfg url st).1.seenHashes = st.seenHashes ∧
    (download_image env cfg url st).1.downloaded = st.downloaded := by
  simp only [download_image, hrf, hd, hfw]
  rw [if_neg hfn]
  simp only [Bool.false_eq_true, if_false]
  rw [if_pos hsz]
  exact ⟨rfl, rfl, rfl, rfl, rfl, rfl, rfl, rfl⟩

/-- A one-image environment whose image is both too small and below the
minimum dimensions. -/
def envSmall : CrawlEnv :=
  { allowed := fun _ => true
    fetchOk := fun _ => true
    pageLinks := fun _ => []
    pageImages := fun _ => ["http://h/i.png".toList]
    headCT := fun _ => none
    imgData := fun _ => some ⟨100, some (1, 1), "h1".toList, false⟩ }

/-- Witness for `size_filter_short_circuit`: the concrete image would also
fail the dimension stage, yet only the size counter moves. -/
theorem size_filter_short_circuit_witness :
    ((resolveFilename envSmall "http://h/i.png".toList
        (initState cfgEx []).downloaded.length).2 = some "i.png".toList ∧
     "i.png".toList ∉ (initState cfgEx []).disk ∧
     envSmall.imgData "http://h/i.png".toList = some ⟨100, some (1, 1), "h1".toList, false⟩ ∧
     ((100 : Nat) : Int) < cfgEx.minSizeKb * 1024 ∧
     ((1 : Int) < cfgEx.minW ∧ (1 : Int) < cfgEx.minH)) ∧
    ((download_image envSmall cfgEx "http://h/i.png".toList (initState cfgEx [])).2 = false ∧
     (download_image envSmall cfgEx "http://h/i.png".toList (initState cfgEx [])).1.skipSize =
       (initState cfgEx []).skipSize + 1 ∧
     (download_image envSmall cfgEx "http://h/i.png".toList (initState cfgEx [])).1.skipDims =
       (initState cfgEx []).skipDims ∧
     (download_image envSmall cfgEx "http://h/i.png".toList (initState cfgEx [])).1.skipDup =
       (initState cfgEx []).skipDup ∧
     (download_image envSmall cfgEx "http://h/i.png".toList (initState cfgEx [])).1.skipWebp =
       (initState cfgEx []).skipWebp ∧
     (download_image envSmall cfgEx "http://h/i.png".toList (initState cfgEx [])).1.skipExists =
       (initState cfgEx []).skipExists ∧
     (download_image envSmall cfgEx "http://h/i.png".toList (initState cfgEx [])).1.seenHashes =
       (initState cfgEx []).seenHashes ∧
     (download_image envSmall cfgEx "http://h/i.png".toList (initState cfgEx [])).1.downloaded =
       (initState cfgEx []).downloaded) :=
  ⟨by decide,
   size_filter_short_circuit envSmall cfgEx "http://h/i.png".toList "i.png".toList
     (initState cfgEx []) ⟨100, some (1, 1), "h1".toList, false⟩ (by decide) (by decide)
     (by decide) (by decide) (by decide)⟩

/-- Claim C6 (amended): when the sanitized destination filename already
exists, the download returns success immediately with one
`already_exists` skip and no image GET — the only network traffic is what
filename *resolution* itself performed, which is at most one HEAD request,
and is none at all whenever the URL basename already carries an extension.
The claim's unconditional "no network access" fails for extension-less
basenames, where a HEAD request precedes the existence check
(`already_exists_head_cex`). -/
theorem already_exists_short_circuit (env : CrawlEnv) (cfg : CrawlConfig)
    (url fn : List Char) (st : CrawlState)
    (hrf : (resolveFilename env url st.downloaded.length).2 = some fn)
    (hmem : fn ∈ st.disk) :
    download_image env cfg url st =
      ({ st with netLog := st.netLog ++ (resolveFilename env url st.downloaded.length).1,
                 skipExists := st.skipExists + 1 }, true) ∧
    ((resolveFilename env url st.downloaded.length).1 = [] ∨
     (resolveFilename env url st.downloaded.length).1 = [NetEvent.imgHead url]) ∧
    (basenameOf (urlparse url).path ≠ [] ∧ '.' ∈ basenameOf (urlparse url).path →
     (resolveFilename env url st.downloaded.length).1 = []) := by
  refine ⟨?_, ?_, ?_⟩
  · simp only [download_image, hrf]
    rw [if_pos hmem]
  · simp only [resolveFilename]
    split_ifs with h1 h2
    · exact Or.inl rfl
    · rcases hct : env.headCT url with _ | ct
      · simp only [hct]
        exact Or.inr trivial
      · simp only [hct]
        split_ifs <;> first | exact Or.inr trivial | exact Or.inr rfl
    · exact Or.inl rfl
  · intro hbase
    simp only [resolveFilename]
    split_ifs with h1 h2
    · rfl
    · rcases h2 with h2 | h2
      · exact absurd h2 hbase.1
      · exact absurd hbase.2 h2
    · rfl

/-- Witness for `already_exists_short_circuit`. -/
theorem already_exists_short_circuit_witness :
    ((resolveFilename envDl "http://h/i.png".toList
        (initState cfgEx ["i.png".toList]).downloaded.length).2 = some "i.png".toList ∧
     "i.png".toList ∈ (initState cfgEx ["i.png".toList]).disk) ∧
    (download_image envDl cfgEx "http://h/i.png".toList (initState cfgEx ["i.png".toList]) =
      ({ initState cfgEx ["i.png".toList] with
           netLog := (initState cfgEx ["i.png".toList]).netLog ++
             (resolveFilename envDl "http://h/i.png".toList
               (initState cfgEx ["i.png".toList]).downloaded.length).1,
           skipExists := (initState cfgEx ["i.png".toList]).skipExists + 1 }, true) ∧
     ((resolveFilename envDl "http://h/i.png".toList
         (initState cfgEx ["i.png".toList]).downloaded.length).1 = [] ∨
      (resolveFilename envDl "http://h/i.png".toList
         (initState cfgEx ["i.png".toList]).downloaded.length).1 =
        [NetEvent.imgHead "http://h/i.png".toList]) ∧
     (basenameOf (urlparse "http://h/i.png".toList).path ≠ [] ∧
        '.' ∈ basenameOf (urlparse "http://h/i.png".toList).path →
      (resolveFilename envDl "http://h/i.png".toList
         (initState cfgEx ["i.png".toList]).downloaded.length).1 = [])) :=
  ⟨by decide,
   already_exists_short_circuit envDl cfgEx "http://h/i.png".toList "i.png".toList
     (initState cfgEx ["i.png".toList]) (by decide) (by decide)⟩

/-- Environment for the C6 counterexample: an extension-less image URL whose
HEAD reports `image/png`. -/
def envC6 : CrawlEnv :=
  { allowed := fun _ => true
    fetchOk := fun _ => true
    pageLinks := fun _ => []
    pageImages := fun _ => ["http://h/dir/".toList]
    headCT := fun _ => some "image/png".toList
    imgData := fun _ => none }

/-- Counterexample to claim C6 as stated: with `image_0.png` pre-existing,
downloading the extension-less URL `http://h/dir/` is skipped as
`already_exists`, yet a HEAD request was issued first — the short-circuit
is not free of network access. -/
theorem already_exists_head_cex :
    (download_image envC6 cfgEx "http://h/dir/".toList
       (initState cfgEx ["image_0.png".toList])).2 = true ∧
    (download_image envC6 cfgEx "http://h/dir/".toList
       (initState cfgEx ["image_0.png".toList])).1.skipExists = 1 ∧
    (download_image envC6 cfgEx "http://h/dir/".toList
       (initState cfgEx ["image_0.png".toList])).1.netLog =
      [NetEvent.imgHead "http://h/dir/".toList] := by
  decide

/-- The state after a fully successful download with duplicate detection
on: the image GET is logged, the hash recorded, the file appears under its
final name, the URL is appended to the accepted list. -/
def acceptState (url fn : List Char) (st : CrawlState) (d : ImgData) : CrawlState :=
  { st with netLog := st.netLog ++ [NetEvent.imgGet url],
            seenHashes := addHash d.hashHex st.seenHashes,
            disk := insertFile fn st.disk,
            downloaded := st.downloaded ++ [url] }

/-- Shape of a fully successful download with duplicate detection on. -/
theorem download_image_accept (env : CrawlEnv) (cfg : CrawlConfig)
    (url fn : List Char) (st : CrawlState) (d : ImgData) (w h : Int)
    (hrf : resolveFilename env url st.downloaded.length = ([], some fn))
    (hfn : fn ∉ st.disk) (htmp : fn ++ ".tmp".toList ∉ st.disk)
    (hd : env.imgData url = some d) (hfw : d.failAfterWrite = false)
    (hsz : ¬ ((d.sizeBytes : Int) < cfg.minSizeKb * 1024))
    (hdims : d.dims = some (w, h)) (hwh : ¬ (w < cfg.minW ∨ h < cfg.minH))
    (hnd : cfg.noDuplicates = true)
    (hseen : ¬ (d.hashHex ≠ [] ∧ d.hashHex ∈ st.seenHashes)) :
    download_image env cfg url st = (acceptState url fn st d, true) := by
  unfold acceptState
  simp only [download_image, hrf]
  rw [if_neg hfn]
  simp only [hd, hfw, Bool.false_eq_true, if_false]
  rw [if_neg hsz]
  unfold dimsStage
  split_ifs with hp
  · simp only [hdims]
    rw [if_neg hwh]
    unfold dupStage
    rw [if_pos hnd, if_neg hseen]
    unfold renameStage
    rw [removeFile_insertFile _ _ htmp]
    simp
  · unfold dupStage
    rw [if_pos hnd, if_neg hseen]
    unfold renameStage
    rw [removeFile_insertFile _ _ htmp]
    simp

/-- Shape of a download rejected at the duplicate stage: the temp file is
removed, the duplicate counter moves, nothing else changes. -/
theorem download_image_dup_reject (env : CrawlEnv) (cfg : CrawlConfig)
    (url fn : List Char) (st : CrawlState) (d : ImgData) (w h : Int)
    (hrf : resolveFilename env url st.downloaded.length = ([], some fn))
    (hfn : fn ∉ st.disk) (htmp : fn ++ ".tmp".toList ∉ st.disk)
    (hd : env.imgData url = some d) (hfw : d.failAfterWrite = false)
    (hsz : ¬ ((d.sizeBytes : Int) < cfg.minSizeKb * 1024))
    (hdims : d.dims = some (w, h)) (hwh : ¬ (w < cfg.minW ∨ h < cfg.minH))
    (hnd : cfg.noDuplicates = true)
    (hseen : d.hashHex ≠ [] ∧ d.hashHex ∈ st.seenHashes) :
    download_image env cfg url st =
      ({ st with netLog := st.netLog ++ [NetEvent.imgGet url],
                 skipDup := st.skipDup + 1 }, false) := by
  simp only [download_image, hrf]
  rw [if_neg hfn]
  simp only [hd, hfw, Bool.false_eq_true, if_false]
  rw [if_neg hsz]
  unfold dimsStage
  split_ifs with hp
  · simp only [hdims]
    rw [if_neg hwh]
    unfold dupStage
    rw [if_pos hnd, if_pos hseen]
    rw [removeFile_insertFile _ _ htmp]
    simp
  · unfold dupStage
    rw [if_pos hnd, if_pos hseen]
    rw [removeFile_insertFile _ _ htmp]
    simp

/-- Claim C7 (confirmed): with duplicate detection enabled, downloading two
images with identical non-empty content hashes from two different URLs
(distinct destination filenames, both passing the size and dimension
stages) accepts exactly the first one and rejects the second at the
duplicate stage: the accepted list grows by the first URL only, the disk
gains exactly the first filename, and the duplicate counter moves by
exactly one. -/
theorem duplicate_suppression (env : CrawlEnv) (cfg : CrawlConfig)
    (url1 url2 fn1 fn2 : List Char) (st : CrawlState) (d1 d2 : ImgData)
    (w1 h1 w2 h2 : Int)
    (hrf1 : resolveFilename env url1 st.downloaded.length = ([], some fn1))
    (hrf2 : resolveFilename env url2 (st.downloaded.length + 1) = ([], some fn2))
    (hfn1 : fn1 ∉ st.disk) (htmp1 : fn1 ++ ".tmp".toList ∉ st.disk)
    (hfn2 : fn2 ∉ st.disk) (htmp2 : fn2 ++ ".tmp".toList ∉ st.disk)
    (hne21 : fn2 ≠ fn1) (htne21 : fn2 ++ ".tmp".toList ≠ fn1)
    (hd1 : env.imgData url1 = some d1) (hd2 : env.imgData url2 = some d2)
    (hfw1 : d1.failAfterWrite = false) (hfw2 : d2.failAfterWrite = false)
    (hsz1 : ¬ ((d1.sizeBytes : Int) < cfg.minSizeKb * 1024))
    (hsz2 : ¬ ((d2.sizeBytes : Int) < cfg.minSizeKb * 1024))
    (hdims1 : d1.dims = some (w1, h1)) (hwh1 : ¬ (w1 < cfg.minW ∨ h1 < cfg.minH))
    (hdims2 : d2.dims = some (w2, h2)) (hwh2 : ¬ (w2 < cfg.minW ∨ h2 < cfg.minH))
    (hnd : cfg.noDuplicates = true)
    (hhash : d2.hashHex = d1.hashHex) (hhne : d1.hashHex ≠ [])
    (hunseen : d1.hashHex ∉ st.seenHashes) :
    (download_image env cfg url1 st).2 = true ∧
    (download_image env cfg url2 (download_image env cfg url1 st).1).2 = false ∧
    (download_image env cfg url2 (download_image env cfg url1 st).1).1.skipDup =
      st.skipDup + 1 ∧
    (download_image env cfg url2 (download_image env cfg url1 st).1).1.downloaded =
      st.downloaded ++ [url1] ∧
    (download_image env cfg url2 (download_image env cfg url1 st).1).1.disk =
      insertFile fn1 st.disk := by
  have hA := download_image_accept env cfg url1 fn1 st d1 w1 h1 hrf1 hfn1 htmp1 hd1 hfw1
    hsz1 hdims1 hwh1 hnd (fun hc => hunseen hc.2)
  rw [hA]
  have hlen : (acceptState url1 fn1 st d1).downloaded.length =
      st.downloaded.length + 1 := by
    simp [acceptState]
  have hrf2' : resolveFilename env url2 (acceptState url1 fn1 st d1).downloaded.length =
      ([], some fn2) := by
    rw [hlen]
    exact hrf2
  have hfn2' : fn2 ∉ (acceptState url1 fn1 st d1).disk := by
    show fn2 ∉ insertFile fn1 st.disk
    rw [mem_insertFile]
    push_neg
    exact ⟨hne21, hfn2⟩
  have htmp2' : fn2 ++ ".tmp".toList ∉ (acceptState url1 fn1 st d1).disk := by
    show fn2 ++ ".tmp".toList ∉ insertFile fn1 st.disk
    rw [mem_insertFile]
    push_neg
    exact ⟨htne21, htmp2⟩
  have hseen2 : d2.hashHex ≠ [] ∧
      d2.hashHex ∈ (acceptState url1 fn1 st d1).seenHashes := by
    rw [hhash]
    exact ⟨hhne, mem_addHash_self _ _⟩
  have hB := download_image_dup_reject env cfg url2 fn2 (acceptState url1 fn1 st d1)
    d2 w2 h2 hrf2' hfn2' htmp2' hd2 hfw2 hsz2 hdims2 hwh2 hnd hseen2
  rw [hB]
  refine ⟨rfl, rfl, ?_, ?_, ?_⟩ <;> simp [acceptState]

/-- Configuration with duplicate detection enabled. -/
def cfgC7 : CrawlConfig :=
  ⟨"http://h".toList, 10, 100, 100, true, true, 10, 2⟩

/-- Two-image environment: both URLs serve byte-identical content (same
hash, size and dimensions) under different filenames. -/
def envC7 : CrawlEnv :=
  { allowed := fun _ => true
    fetchOk := fun _ => true
    pageLinks := fun _ => []
    pageImages := fun _ => ["http://h/a.png".toList, "http://h/b.png".toList]
    headCT := fun _ => none
    imgData := fun _ => some ⟨200000, some (500, 500), "hh".toList, false⟩ }

/-- Witness for `duplicate_suppression`. -/
theorem duplicate_suppression_witness :
    (resolveFilename envC7 "http://h/a.png".toList
        (initState cfgC7 []).downloaded.length = ([], some "a.png".toList) ∧
     resolveFilename envC7 "http://h/b.png".toList
        ((initState cfgC7 []).downloaded.length + 1) = ([], some "b.png".toList) ∧
     envC7.imgData "http://h/a.png".toList =
        some ⟨200000, some (500, 500), "hh".toList, false⟩ ∧
     cfgC7.noDuplicates = true ∧
     ¬ (((200000 : Nat) : Int) < cfgC7.minSizeKb * 1024) ∧
     ¬ ((500 : Int) < cfgC7.minW ∨ (500 : Int) < cfgC7.minH)) ∧
    ((download_image envC7 cfgC7 "http://h/a.png".toList (initState cfgC7 [])).2 = true ∧
     (download_image envC7 cfgC7 "http://h/b.png".toList
        (download_image envC7 cfgC7 "http://h/a.png".toList (initState cfgC7 [])).1).2 =
       false ∧
     (download_image envC7 cfgC7 "http://h/b.png".toList
        (download_image envC7 cfgC7 "http://h/a.png".toList (initState cfgC7 [])).1).1.skipDup =
       (initState cfgC7 []).skipDup + 1 ∧
     (download_image envC7 cfgC7 "http://h/b.png".toList
        (download_image envC7 cfgC7 "http://h/a.png".toList (initState cfgC7 [])).1).1.downloaded =
       (initState cfgC7 []).downloaded ++ ["http://h/a.png".toList] ∧
     (download_image envC7 cfgC7 "http://h/b.png".toList
        (download_image envC7 cfgC7 "http://h/a.png".toList (initState cfgC7 [])).1).1.disk =
       insertFile "a.png".toList (initState cfgC7 []).disk) :=
  ⟨by decide,
   duplicate_suppression envC7 cfgC7 "http://h/a.png".toList "http://h/b.png".toList
     "a.png".toList "b.png".toList (initState cfgC7 [])
     ⟨200000, some (500, 500), "hh".toList, false⟩
     ⟨200000, some (500, 500), "hh".toList, false⟩
     500 500 500 500
     (by decide) (by decide) (by decide) (by decide) (by decide) (by decide) (by decide)
     (by decide) (by decide) (by decide) (by decide) (by decide) (by decide) (by decide)
     (by decide) (by decide) (by decide) (by decide) (by decide) (by decide) (by decide)
     (by decide)⟩

/-- Claim C9 (amended): `main` validates only the URL scheme: the process
exits 1 before any network activity exactly when the base URL starts with
neither `http://` nor `https://`.  With an accepted scheme and a
non-negative delay it exits 0 after printing the summary — max pages, max
depth, min size, min width and min height are never range-checked, so
non-positive values there neither cause a non-zero exit nor prevent
network activity.  A negative delay, however, is not rejected up front but
crashes the run with an uncaught `ValueError` at the first page-fetch
attempt: the process then exits non-zero after network activity and
prints no summary. -/
theorem main_exit_spec (a : Args) (pil : Bool) (env : CrawlEnv)
    (disk0 : List (List Char)) (fuel : Nat) :
    ((mainModel a pil env disk0 fuel).2.1 = schemeOk a.url) ∧
    (schemeOk a.url = false → mainModel a pil env disk0 fuel = (1, false, false)) ∧
    (schemeOk a.url = true → 0 ≤ a.delay →
      mainModel a pil env disk0 fuel = (0, true, true)) ∧
    (schemeOk a.url = true → a.delay < 0 →
      (crawl env (cfgOfArgs a pil) disk0 fuel).fetchLog ≠ [] →
      mainModel a pil env disk0 fuel = (1, true, false)) := by
  refine ⟨?_, ?_, ?_, ?_⟩
  · by_cases hs : schemeOk a.url = true
    · simp only [mainModel, hs]
      rw [if_neg (by simp)]
      split_ifs <;> rfl
    · rw [Bool.not_eq_true] at hs
      simp [mainModel, hs]
  · intro hs
    simp [mainModel, hs]
  · intro hs hd
    simp only [mainModel, hs]
    rw [if_neg (by simp), if_neg (fun hc => absurd hc.1 (Int.not_lt.mpr hd))]
  · intro hs hd hf
    simp only [mainModel, hs]
    rw [if_neg (by simp), if_pos ⟨hd, hf⟩]

/-- Arguments with an accepted scheme but a non-positive page budget. -/
def argsC9 : Args :=
  ⟨"http://h".toList, "out".toList, 1, 0, 2, 10, 100, 100, false⟩

/-- Counterexample to claim C9 as stated: `max_pages = 0` is non-positive,
yet the process exits 0 with its summary, and network activity (the
robots.txt fetch) is attempted — numeric configuration is not validated. -/
theorem main_nonpositive_cex :
    argsC9.maxPages ≤ 0 ∧
    (mainModel argsC9 true envEx [] 10).1 = 0 ∧
    (mainModel argsC9 true envEx [] 10).2.1 = true ∧
    (mainModel argsC9 true envEx [] 10).2.2 = true := by
  decide

/-- The same arguments with a negative delay: the crawl would attempt a
page fetch, so the run crashes. -/
def argsC9n : Args :=
  ⟨"http://h".toList, "out".toList, -1, 10, 2, 10, 100, 100, false⟩

/-- Witness for `main_exit_spec`: an accepted-scheme run with non-negative
delay (and non-positive max pages) exits 0 with the summary; the same site
crawled with a negative delay exits 1 without it. -/
theorem main_exit_spec_witness :
    (schemeOk argsC9.url = true ∧ (0 : Int) ≤ argsC9.delay ∧
     mainModel argsC9 true envEx [] 10 = (0, true, true)) ∧
    (schemeOk argsC9n.url = true ∧ argsC9n.delay < 0 ∧
     (crawl envEx (cfgOfArgs argsC9n true) [] 10).fetchLog ≠ [] ∧
     mainModel argsC9n true envEx [] 10 = (1, true, false)) :=
  ⟨⟨by decide, by decide,
    (main_exit_spec argsC9 true envEx [] 10).2.2.1 (by decide) (by decide)⟩,
   ⟨by decide, by decide, by decide,
    (main_exit_spec argsC9n true envEx [] 10).2.2.2 (by decide) (by decide) (by decide)⟩⟩
